import Mathlib

/-!
Verification of the xacro-to-URDF conversion engine.

This file is a shallow embedding, in Lean 4, of the xacro-style XML
template expander implemented in `URDF_Exporter/utils/xacro2unity.py`,
together with theorems settling the specification claims about it.

Modelling conventions:
* Python strings are Lean `String`s; the lexers work on `List Char`.
* CPython `float` values are modelled by `PyFloat`: an exact rational for
  finite values, plus signed infinity and NaN.  The program never performs
  float arithmetic (its evaluator consumes a single token), so every float
  it handles is the direct result of parsing a decimal literal; on the
  short decimal literals involved the exact-rational model coincides with
  IEEE-754 doubles.  Unicode digits/whitespace and underscore digit
  separators accepted by CPython are outside the modelled character set.
* The mutable DOM tree is an immutable rose tree `Node`; in-place mutation
  becomes returning the rewritten tree.
* Fallible code returns `Except`; a raised `KeyError name` is
  `Except.error name`.
* Loops whose termination is not structural take an explicit fuel
  argument; fuel only runs out where the Python loop would not terminate
  (or needs more steps than supplied).
-/

namespace XacroUnity

/-- Decidable equality for Except results, used to evaluate the embedded
functions on concrete inputs. -/
instance {ε α : Type} [DecidableEq ε] [DecidableEq α] : DecidableEq (Except ε α) := fun x y =>
  match x, y with
  | .ok a, .ok b =>
    if h : a = b then isTrue (by rw [h])
    else isFalse (by intro hh; cases hh; exact h rfl)
  | .error a, .error b =>
    if h : a = b then isTrue (by rw [h])
    else isFalse (by intro hh; cases hh; exact h rfl)
  | .ok _, .error _ => isFalse (by intro h; cases h)
  | .error _, .ok _ => isFalse (by intro h; cases h)

/-- ASCII whitespace matched by the regex class backslash-s
(CPython additionally matches Unicode whitespace, outside our model). -/
def isPySpace (c : Char) : Bool :=
  c == ' ' || c == '\t' || c == '\n' || c == '\r' || c == '\x0b' || c == '\x0c'

/-- ASCII decimal digit, regex class backslash-d. -/
def isPyDigit (c : Char) : Bool :=
  '0' ≤ c && c ≤ '9'

/-- ASCII word character, regex class backslash-w. -/
def isPyWord (c : Char) : Bool :=
  isPyDigit c || ('a' ≤ c && c ≤ 'z') || ('A' ≤ c && c ≤ 'Z') || c == '_'

/-- First character of the SYMBOL pattern, regex class [a-zA-Z_]. -/
def isSymbolStart (c : Char) : Bool :=
  ('a' ≤ c && c ≤ 'z') || ('A' ≤ c && c ≤ 'Z') || c == '_'

-- ===========================================================================
-- CPython float model
-- ===========================================================================

/-- A CPython float: finite values are modelled exactly as rationals. -/
inductive PyFloat where
  | fin (q : ℚ)
  | inf (neg : Bool)
  | nan
  deriving DecidableEq

/-- Value of a list of decimal digit characters. -/
def digitsToNat (l : List Char) : Nat :=
  l.foldl (fun acc c => 10 * acc + (c.toNat - '0'.toNat)) 0

/-- Lower-cased ASCII letters of a string (model of str.lower on ASCII). -/
def asciiLower (l : List Char) : List Char :=
  l.map Char.toLower

/-- Parse an optional sign; returns (negative?, rest). -/
def parseSign : List Char → Bool × List Char
  | '-' :: r => (true, r)
  | '+' :: r => (false, r)
  | l => (false, l)

/-- Parse the exponent suffix digits with optional sign; the whole input
must be consumed.  Models the tail of CPython float syntax after the
letter e. -/
def parseExpTail (l : List Char) : Option Int :=
  let (neg, r) := parseSign l
  let (ds, rest) := r.span isPyDigit
  if ds = [] || rest ≠ [] then none
  else some (if neg then -(digitsToNat ds : Int) else (digitsToNat ds : Int))

/-- Parse the unsigned body of a CPython float literal: digits with an
optional fractional part (or a fractional part alone) and an optional
exponent; the whole input must be consumed. -/
def parseFloatBody (l : List Char) : Option ℚ :=
  let (ip, r1) := l.span isPyDigit
  let mantAndRest : Option (ℚ × List Char) :=
    match r1 with
    | '.' :: r2 =>
      let (fp, r3) := r2.span isPyDigit
      if ip = [] && fp = [] then none
      else some ((digitsToNat ip : ℚ) + (digitsToNat fp : ℚ) / (10 : ℚ) ^ fp.length, r3)
    | _ =>
      if ip = [] then none else some ((digitsToNat ip : ℚ), r1)
  match mantAndRest with
  | none => none
  | some (m, rest) =>
    match rest with
    | [] => some m
    | e :: r2 =>
      if e == 'e' || e == 'E' then
        match parseExpTail r2 with
        | some ex => some (m * (10 : ℚ) ^ ex)
        | none => none
      else none

/-- Model of CPython float(s) on a string: strips whitespace, accepts an
optional sign followed by a decimal literal or the words inf, infinity or
nan (case-insensitive); returns none where CPython raises ValueError. -/
def pyFloatParse (s : String) : Option PyFloat :=
  let l := ((s.data.dropWhile isPySpace).reverse.dropWhile isPySpace).reverse
  let (neg, r) := parseSign l
  let low := asciiLower r
  if low = "inf".data || low = "infinity".data then some (.inf neg)
  else if low = "nan".data then some .nan
  else
    match parseFloatBody r with
    | some q => some (.fin (if neg then -q else q))
    | none => none

/-- Smallest k below the fuel bound with q * 10 ^ k integral. -/
def decScaleFuel : Nat → ℚ → Nat
  | 0, _ => 0
  | f + 1, q => if q.den = 1 then 0 else 1 + decScaleFuel f (q * 10)

/-- The character of a decimal digit (only ever applied below ten). -/
def natDigitChar (d : Nat) : Char :=
  match d with
  | 0 => '0' | 1 => '1' | 2 => '2' | 3 => '3' | 4 => '4'
  | 5 => '5' | 6 => '6' | 7 => '7' | 8 => '8' | 9 => '9'
  | _ => '?'

/-- Decimal digit characters of a natural number, accumulator style; the
fuel is the number itself plus one, which always suffices since the
argument is divided by ten on every step. -/
def natToStrAux : Nat → Nat → List Char → List Char
  | 0, _, acc => acc
  | f + 1, n, acc =>
    if n < 10 then natDigitChar n :: acc
    else natToStrAux f (n / 10) (natDigitChar (n % 10) :: acc)

/-- Model of CPython str() on a non-negative int: its decimal digits. -/
def natToStr (n : Nat) : String := String.mk (natToStrAux (n + 1) n [])

/-- Model of CPython str() on an int. -/
def intToStr (n : ℤ) : String :=
  if n < 0 then "-" ++ natToStr n.natAbs else natToStr n.natAbs

/-- Render a natural number zero-padded on the left to width w. -/
def padDigits (n : Nat) (w : Nat) : String :=
  let s := natToStr n
  String.mk (List.replicate (w - s.length) '0') ++ s

/-- Decimal rendering of a non-integral rational whose denominator divides
a power of ten (the only finite non-integral floats this program can
produce, since they all come from parsing decimal literals). -/
def renderDecimal (q : ℚ) : String :=
  let sign := if q < 0 then "-" else ""
  let a : ℚ := |q|
  let k := decScaleFuel 2000 a
  let n : Nat := (a * (10 : ℚ) ^ k).num.toNat
  sign ++ natToStr (n / 10 ^ k) ++ "." ++ padDigits (n % 10 ^ k) k

/-- Model of CPython str() on a float.  Finite integral values render as
the integer followed by ".0"; other finite values as their exact decimal
expansion.  (CPython switches to scientific notation outside
[1e-4, 1e16); no value reached in the verified claims is in that range.) -/
def pyStrOfFloat : PyFloat → String
  | .nan => "nan"
  | .inf false => "inf"
  | .inf true => "-inf"
  | .fin q => if q.den = 1 then intToStr q.num ++ ".0" else renderDecimal q

-- ===========================================================================
-- Document model
-- ===========================================================================

/-- A minidom node: element with tag, attributes (insertion-ordered
unique-key mapping) and children, or a text node, or a comment. -/
inductive Node where
  | elem (tag : String) (attrs : List (String × String)) (kids : List Node)
  | text (data : String)
  | comment (data : String)

/-- Tag of an element; empty for non-elements (never consulted there). -/
def Node.tagName : Node → String
  | .elem t _ _ => t
  | _ => ""

/-- Whether the node is an element. -/
def Node.isElem : Node → Bool
  | .elem _ _ _ => true
  | _ => false

/-- Insert-or-update on an insertion-ordered association list: the model of
Python dict assignment. -/
def dictInsert {α : Type} : List (String × α) → String → α → List (String × α)
  | [], k, v => [(k, v)]
  | (k', v') :: r, k, v =>
    if k' = k then (k, v) :: r else (k', v') :: dictInsert r k v

/-- Model of minidom getAttribute: the empty string when absent. -/
def getAttribute (attrs : List (String × String)) (name : String) : String :=
  ((attrs.find? (fun p => p.1 == name)).map Prod.snd).getD ""

/-- Model of minidom hasAttribute. -/
def hasAttribute (attrs : List (String × String)) (name : String) : Bool :=
  (attrs.find? (fun p => p.1 == name)).isSome

-- ===========================================================================
-- Symbol table (class Table)
-- ===========================================================================

/-- A property value: the string of a value attribute, or the property
element itself when it has no value attribute. -/
inductive Value where
  | str (s : String)
  | domElem (n : Node)

/-- The scoped symbol table: own entries plus an optional parent chain. -/
inductive Table where
  | root (entries : List (String × Value))
  | child (entries : List (String × Value)) (parent : Table)

/-- Own entries of a table scope. -/
def Table.entries : Table → List (String × Value)
  | .root es => es
  | .child es _ => es

/-- Model of Table lookup: own entries first, then the parent chain;
none models the raised KeyError. -/
def Table.getitem : Table → String → Option Value
  | .root es, k => (es.find? (fun p => p.1 == k)).map Prod.snd
  | .child es p, k =>
    match (es.find? (fun p => p.1 == k)).map Prod.snd with
    | some v => some v
    | none => p.getitem k

/-- Model of Table assignment: writes the innermost scope. -/
def Table.setitem : Table → String → Value → Table
  | .root es, k, v => .root (dictInsert es k v)
  | .child es p, k, v => .child (dictInsert es k v) p

/-- The empty dict passed for symbols when evaluating include filenames. -/
def emptyTable : Table := .root []

-- ===========================================================================
-- Expression lexer (the QuickLexer configured inside handle_expr)
-- ===========================================================================

/-- Pattern indices of the expression lexer, in declaration order. -/
inductive TokKind where
  | IGNORE | NUMBER | SYMBOL | OP | LPAREN | RPAREN
  deriving DecidableEq

/-- Match the IGNORE pattern (one or more whitespace characters) against a
prefix of the input. -/
def matchIGNORE (l : List Char) : Option (List Char × List Char) :=
  let (ws, rest) := l.span isPySpace
  if ws = [] then none else some (ws, rest)

/-- Match the NUMBER pattern: digits with optional fractional part, or a
fractional part alone, then an optional exponent; greedy, as the regex. -/
def matchNUMBER (l : List Char) : Option (List Char × List Char) :=
  let (ip, r1) := l.span isPyDigit
  let mant : Option (List Char × List Char) :=
    if ip = [] then
      match r1 with
      | '.' :: r2 =>
        let (fp, r3) := r2.span isPyDigit
        if fp = [] then none else some ('.' :: fp, r3)
      | _ => none
    else
      match r1 with
      | '.' :: r2 =>
        let (fp, r3) := r2.span isPyDigit
        some (ip ++ '.' :: fp, r3)
      | _ => some (ip, r1)
  match mant with
  | none => none
  | some (m, rest) =>
    match rest with
    | e :: r2 =>
      if e == 'e' || e == 'E' then
        let (sn, r3) := match r2 with
          | '+' :: r3 => ([('+' : Char)], r3)
          | '-' :: r3 => ([('-' : Char)], r3)
          | _ => ([], r2)
        let (ds, r4) := r3.span isPyDigit
        if ds = [] then some (m, rest)
        else some (m ++ e :: sn ++ ds, r4)
      else some (m, rest)
    | [] => some (m, rest)

/-- Match the SYMBOL pattern: a letter or underscore followed by word
characters; greedy. -/
def matchSYMBOL (l : List Char) : Option (List Char × List Char) :=
  match l with
  | c :: r =>
    if isSymbolStart c then
      let (w, rest) := r.span isPyWord
      some (c :: w, rest)
    else none
  | [] => none

/-- Match the OP pattern: one arithmetic operator character. -/
def matchOP (l : List Char) : Option (List Char × List Char) :=
  match l with
  | c :: r => if c == '+' || c == '-' || c == '*' || c == '/' then some ([c], r) else none
  | [] => none

/-- Match a single given character. -/
def matchCHAR (target : Char) (l : List Char) : Option (List Char × List Char) :=
  match l with
  | c :: r => if c == target then some ([c], r) else none
  | [] => none

/-- One step of the expression QuickLexer: try the patterns in declaration
order (IGNORE, NUMBER, SYMBOL, OP, LPAREN, RPAREN) against the prefix of
the input; none models the lexer stopping on unmatched input. -/
def exprNext (l : List Char) : Option (TokKind × List Char × List Char) :=
  match matchIGNORE l with
  | some (t, r) => some (.IGNORE, t, r)
  | none =>
  match matchNUMBER l with
  | some (t, r) => some (.NUMBER, t, r)
  | none =>
  match matchSYMBOL l with
  | some (t, r) => some (.SYMBOL, t, r)
  | none =>
  match matchOP l with
  | some (t, r) => some (.OP, t, r)
  | none =>
  match matchCHAR '(' l with
  | some (t, r) => some (.LPAREN, t, r)
  | none =>
  match matchCHAR ')' l with
  | some (t, r) => some (.RPAREN, t, r)
  | none => none

-- ===========================================================================
-- Expression evaluation (eval_expr)
-- ===========================================================================

/-- Python value produced by eval_expr: the int 0, a float, or a string. -/
inductive PyVal where
  | vint (n : ℤ)
  | vfloat (f : PyFloat)
  | vstr (s : String)
  deriving DecidableEq

/-- Model of CPython str() of a minidom Element stored as a property
value (CPython also appends the object address, which is not
deterministically observable and is not modelled). -/
def domElemStr (n : Node) : String :=
  "<DOM Element: " ++ n.tagName ++ ">"

/-- Model of CPython str() on the values eval_expr returns. -/
def pyStr : PyVal → String
  | .vint n => intToStr n
  | .vfloat f => pyStrOfFloat f
  | .vstr s => s

/-- Embedding of eval_expr.  After lex(s) the lexer's lookahead holds the
first token of s; eval_expr inspects only that token: an empty stream or a
token other than NUMBER and SYMBOL yields the int 0; a NUMBER or SYMBOL
token is first tried as a float literal, otherwise looked up in the symbol
table (a missing name raises KeyError, our error), and the stored value is
returned as a float when it parses as one, else as a string. -/
def eval_expr (symbols : Table) (s : List Char) : Except String PyVal :=
  match exprNext s with
  | none => .ok (.vint 0)
  | some (k, tok, _) =>
    if k = .NUMBER ∨ k = .SYMBOL then
      let tokStr := String.mk tok
      match pyFloatParse tokStr with
      | some f => .ok (.vfloat f)
      | none =>
        match symbols.getitem tokStr with
        | none => .error tokStr
        | some (.str v) =>
          match pyFloatParse v with
          | some f => .ok (.vfloat f)
          | none => .ok (.vstr v)
        | some (.domElem e) => .ok (.vstr (domElemStr e))
    else .ok (.vint 0)

-- ===========================================================================
-- Text-splitting lexer and eval_text
-- ===========================================================================

/-- Scan to the first closing brace: the interior of the EXPR pattern.
Returns the characters before the brace and the input after it. -/
def takeToBrace : List Char → Option (List Char × List Char)
  | [] => none
  | c :: r =>
    if c = '}' then some ([], r)
    else (takeToBrace r).map (fun p => (c :: p.1, p.2))

/-- Match the EXPR pattern (a dollar-brace span with no nested closing
brace).  Returns the span interior (the token text with its first two and
last characters stripped, exactly as eval_text slices it) and the rest. -/
def matchEXPR : List Char → Option (List Char × List Char)
  | '$' :: '{' :: r => takeToBrace r
  | _ => none

/-- The deterministic unit scan of the TEXT pattern: repeatedly consume a
non-dollar character, or a dollar followed by a non-brace character;
returns the consumed prefix and the remainder where the scan stops. -/
def textScan : List Char → List Char × List Char
  | [] => ([], [])
  | c :: r =>
    if c = '$' then
      match r with
      | [] => ([], [c])
      | c2 :: r2 =>
        if c2 = '{' then ([], c :: c2 :: r2)
        else
          let p := textScan r2
          (c :: c2 :: p.1, p.2)
    else
      let p := textScan r
      (c :: p.1, p.2)

/-- Match the TEXT pattern (a maximal nonempty run of characters that do
not start a dollar-brace span). -/
def matchTEXT (l : List Char) : Option (List Char × List Char) :=
  let p := textScan l
  if p.1 = [] then none else some p

/-- The token loop of eval_text over the text-splitting QuickLexer, whose
patterns are tried in declaration order: EXPR first, then TEXT.  An EXPR
token is evaluated by eval_expr on its interior and rendered with str();
a TEXT token is kept verbatim; when neither pattern matches, the loop
stops, discarding the unmatched remainder.  Every token is nonempty, so
fuel equal to the input length always suffices. -/
def eval_text_loop (symbols : Table) : Nat → List Char → Except String (List String)
  | 0, _ => .ok []
  | fuel + 1, s =>
    match matchEXPR s with
    | some (inner, rest) => do
      let v ← eval_expr symbols inner
      let tl ← eval_text_loop symbols fuel rest
      .ok (pyStr v :: tl)
    | none =>
      match matchTEXT s with
      | some (txt, rest) => do
        let tl ← eval_text_loop symbols fuel rest
        .ok (String.mk txt :: tl)
      | none => .ok []

/-- Embedding of eval_text: split the text into literal and expression
spans, evaluate each expression span, and join the results. -/
def eval_text (text : String) (symbols : Table) : Except String String :=
  (eval_text_loop symbols (text.data.length + 1) text.data).map String.join

-- ===========================================================================
-- Tree substitution walk (eval_all)
-- ===========================================================================

/-- Substitute every attribute value of an element, in attribute order,
modelling the setAttribute loop (updating an existing attribute keeps its
position). -/
def evalAttrs (symbols : Table) : List (String × String) → Except String (List (String × String))
  | [] => .ok []
  | (k, v) :: r => do
    let v' ← eval_text v symbols
    let r' ← evalAttrs symbols r
    .ok ((k, v') :: r')

/-- The document-order walk of eval_all over a forest: element attributes
are substituted when the element is visited, then its children, then its
following siblings; text data is substituted in place; other nodes are
untouched. -/
def eval_all_list (symbols : Table) : List Node → Except String (List Node)
  | [] => .ok []
  | .elem tag attrs kids :: rest => do
    let attrs' ← evalAttrs symbols attrs
    let kids' ← eval_all_list symbols kids
    let rest' ← eval_all_list symbols rest
    .ok (.elem tag attrs' kids' :: rest')
  | .text d :: rest => do
    let d' ← eval_text d symbols
    let rest' ← eval_all_list symbols rest
    .ok (.text d' :: rest')
  | n :: rest => do
    let rest' ← eval_all_list symbols rest
    .ok (n :: rest')

/-- Embedding of eval_all: substitutes the root's attributes and then every
node reached by the next_node walk.  The macros table is a parameter of the
original and is never consulted. -/
def eval_all (root : Node) (_macros : List (String × Node)) (symbols : Table) :
    Except String Node := do
  let l ← eval_all_list symbols [root]
  .ok (l.headD root)

-- ===========================================================================
-- Macro and property extraction
-- ===========================================================================

/-- The next_element scan of grab_macros over a forest: a macro-definition
element is recorded (with its whole subtree) and removed, and the scan
resumes after it without entering the removed subtree; any other element
is kept and its children are scanned.  Entries are listed in recording
order; both the bare name and the xacro-prefixed alias are recorded. -/
def grab_macros_list : List Node → List Node × List (String × Node)
  | [] => ([], [])
  | .elem tag attrs kids :: rest =>
    if tag = "macro" ∨ tag = "xacro:macro" then
      let p := grab_macros_list rest
      let name := getAttribute attrs "name"
      (p.1, (name, .elem tag attrs kids) :: ("xacro:" ++ name, .elem tag attrs kids) :: p.2)
    else
      let pk := grab_macros_list kids
      let pr := grab_macros_list rest
      (.elem tag attrs pk.1 :: pr.1, pk.2 ++ pr.2)
  | n :: rest =>
    let p := grab_macros_list rest
    (n :: p.1, p.2)

/-- Embedding of grab_macros: the scan starts at next_element of the
document element, so the root element itself is never examined. -/
def grab_macros (doc : Node) : Node × List (String × Node) :=
  match doc with
  | .elem tag attrs kids =>
    let p := grab_macros_list kids
    (.elem tag attrs p.1, p.2)
  | other => (other, [])

/-- The next_element scan of grab_properties over a forest, analogous to
grab_macros: a property-definition element yields its value attribute as a
string value when present, otherwise the element itself, and is removed.
Entries are listed in recording order. -/
def grab_properties_list : List Node → List Node × List (String × Value)
  | [] => ([], [])
  | .elem tag attrs kids :: rest =>
    if tag = "property" ∨ tag = "xacro:property" then
      let p := grab_properties_list rest
      let name := getAttribute attrs "name"
      let value : Value :=
        if hasAttribute attrs "value" then .str (getAttribute attrs "value")
        else .domElem (.elem tag attrs kids)
      (p.1, (name, value) :: p.2)
    else
      let pk := grab_properties_list kids
      let pr := grab_properties_list rest
      (.elem tag attrs pk.1 :: pr.1, pk.2 ++ pr.2)
  | n :: rest =>
    let p := grab_properties_list rest
    (n :: p.1, p.2)

/-- Embedding of grab_properties: builds the Table by assigning the
recorded entries in document order (a later declaration of the same name
overwrites an earlier one). -/
def grab_properties (doc : Node) : Node × Table :=
  match doc with
  | .elem tag attrs kids =>
    let p := grab_properties_list kids
    (.elem tag attrs p.1, p.2.foldl (fun t kv => t.setitem kv.1 kv.2) (Table.root []))
  | other => (other, Table.root [])

/-- Embedding of eval_self_contained: extract macros, then properties,
then run the substitution walk from the document element. -/
def eval_self_contained (doc : Node) : Except String Node :=
  let p1 := grab_macros doc
  let p2 := grab_properties p1.1
  eval_all p2.1 p1.2 p2.2

/-- Whether a forest contains an element (at any depth) whose tag is in
the given list. -/
def containsTagIn (tags : List String) : List Node → Bool
  | [] => false
  | .elem t _ kids :: rest =>
    tags.contains t || containsTagIn tags kids || containsTagIn tags rest
  | _ :: rest => containsTagIn tags rest

/-- The two spellings of a macro-definition tag. -/
def macroTags : List String := ["macro", "xacro:macro"]

/-- The two spellings of a property-definition tag. -/
def propertyTags : List String := ["property", "xacro:property"]

/-- The two spellings of an include directive tag. -/
def includeTags : List String := ["include", "xacro:include"]

-- ===========================================================================
-- Include resolution (process_includes)
-- ===========================================================================

/-- Contents of a file in the modelled filesystem: a well-formed XML file
is represented by its parsed document element, an unparsable one by
invalid, and a file written by this program by its raw text. -/
inductive FileData where
  | xml (root : Node)
  | invalid
  | raw (content : String)

/-- Errors raised by the conversion.  KeyError carries the symbol name,
XacroException the include path; outOfFuel is a model artifact marking a
run on which the Python include loop would still be running. -/
inductive ConvErr where
  | fileNotFound (path : String)
  | malformedXml
  | includeFailed (path : String)
  | undefinedSymbol (name : String)
  | outOfFuel
  deriving DecidableEq

/-- State threaded through include resolution: the namespace declarations
collected from included roots and the global list of included paths. -/
structure IncState where
  namespaces : List (String × String)
  includes : List String
  deriving DecidableEq

/-- Model of the child_elements generator: the element children, in order. -/
def child_elements (kids : List Node) : List Node :=
  kids.filter Node.isElem

/-- Children of an element node. -/
def Node.kidsOf : Node → List Node
  | .elem _ _ k => k
  | _ => []

/-- Attributes of an element node. -/
def Node.attrsOf : Node → List (String × String)
  | .elem _ a _ => a
  | _ => []

/-- Collect the xmlns-prefixed attributes of an included root into the
namespace dictionary. -/
def collectNamespaces (attrs : List (String × String)) (ns : List (String × String)) :
    List (String × String) :=
  attrs.foldl (fun acc kv => if kv.1.startsWith "xmlns:" then dictInsert acc kv.1 kv.2 else acc) ns

/-- The document-order scan of process_includes over a forest.  An include
directive has its filename attribute evaluated against an empty symbol
table, resolved to a path (the resolve parameter abstracts the find-token
expansion and base-directory join, which only rewrite the path string),
and the referenced file's top-level child elements are spliced in its
place; the scan resumes at the start of the spliced content, so nested
includes are resolved too.  Fuel is consumed only when an include is
spliced; the Python loop diverges exactly where every fuel bound is
exceeded (an include cycle). -/
def process_nodes (resolve : String → String) (files : List (String × FileData)) :
    Nat → List Node → IncState → Except ConvErr (List Node × IncState)
  | _, [], st => .ok ([], st)
  | fuel, .elem tag attrs kids :: rest, st =>
    if tag = "include" ∨ tag = "xacro:include" then
      match eval_text (getAttribute attrs "filename") emptyTable with
      | .error name => .error (.undefinedSymbol name)
      | .ok fname =>
        let path := resolve fname
        match (files.find? (fun p => p.1 == path)).map Prod.snd with
        | none => .error (.includeFailed path)
        | some .invalid => .error (.includeFailed path)
        | some (.raw _) => .error (.includeFailed path)
        | some (.xml iroot) =>
          match fuel with
          | 0 => .error .outOfFuel
          | fuel' + 1 =>
            let st' : IncState :=
              { namespaces := collectNamespaces iroot.attrsOf st.namespaces,
                includes := st.includes ++ [path] }
            process_nodes resolve files fuel' (child_elements iroot.kidsOf ++ rest) st'
    else do
      let pk ← process_nodes resolve files fuel kids st
      let pr ← process_nodes resolve files fuel rest pk.2
      .ok (.elem tag attrs pk.1 :: pr.1, pr.2)
  | fuel, n :: rest, st => do
    let pr ← process_nodes resolve files fuel rest st
    .ok (n :: pr.1, pr.2)
  termination_by fuel l _ => (fuel, sizeOf l)

/-- Embedding of process_includes: scans from next_element of the document
element (the root itself is never an include candidate), then applies the
collected namespace declarations to the root.  Returns the rewritten
document and the list of included paths (the global all_includes, cleared
by the caller). -/
def process_includes (resolve : String → String) (files : List (String × FileData))
    (fuel : Nat) : Node → Except ConvErr (Node × List String)
  | .elem tag attrs kids => do
    let p ← process_nodes resolve files fuel kids ⟨[], []⟩
    .ok (.elem tag (p.2.namespaces.foldl (fun a kv => dictInsert a kv.1 kv.2) attrs) p.1,
         p.2.includes)
  | other => .ok (other, [])

-- ===========================================================================
-- Serializer (fixed_writexml)
-- ===========================================================================

/-- Model of minidom _write_data with no attribute flag: ampersand and
angle brackets are escaped (the sequential replaces of the original agree
with this character map). -/
def xmlEscape (s : String) : String :=
  String.join (s.data.map (fun c =>
    if c = '&' then "&amp;"
    else if c = '<' then "&lt;"
    else if c = '>' then "&gt;"
    else String.mk [c]))

/-- Lexicographic code-point comparison of character lists: the order
Python string comparison uses. -/
def charListLt : List Char → List Char → Bool
  | [], [] => false
  | [], _ :: _ => true
  | _ :: _, [] => false
  | a :: as, b :: bs => if a < b then true else if b < a then false else charListLt as bs

/-- Python string less-than: lexicographic by code point. -/
def strLt (a b : String) : Bool := charListLt a.data b.data

/-- Insert an attribute after all entries whose name is not greater, so
that folding from the left is a stable sort, as Python sorted() is. -/
def insertSorted (p : String × String) : List (String × String) → List (String × String)
  | [] => [p]
  | q :: r => if strLt p.1 q.1 then p :: q :: r else q :: insertSorted p r

/-- Attributes sorted by name, the sorted(attrs.keys()) order
(lexicographic by code point, as Python string comparison). -/
def sortAttrs (attrs : List (String × String)) : List (String × String) :=
  attrs.foldl (fun acc p => insertSorted p acc) []

/-- The serialized attribute list. -/
def renderAttrs (attrs : List (String × String)) : String :=
  String.join ((sortAttrs attrs).map (fun p => " " ++ p.1 ++ "=\"" ++ xmlEscape p.2 ++ "\""))

/-- Whether the node is a text node. -/
def Node.isText : Node → Bool
  | .text _ => true
  | _ => false

mutual

/-- Embedding of the patched Element.writexml, together with the minidom
writexml of text nodes (escaped data between indent and newline) and
comment nodes that it delegates to.  An element writes its attributes in
sorted name order; with no children it self-closes; with a single text
child it renders inline; otherwise it renders its non-text children, each
indented one more level. -/
def fixed_writexml : Node → String → String → String → String
  | .text d, indent, _, newl => indent ++ xmlEscape d ++ newl
  | .comment d, indent, _, newl => indent ++ "<!--" ++ d ++ "-->" ++ newl
  | .elem tag attrs kids, indent, addindent, newl =>
    match kids with
    | [] => indent ++ "<" ++ tag ++ renderAttrs attrs ++ "/>" ++ newl
    | [.text d] =>
      indent ++ "<" ++ tag ++ renderAttrs attrs ++ ">" ++ xmlEscape d ++ "</" ++ tag ++ ">" ++ newl
    | k1 :: krest =>
      indent ++ "<" ++ tag ++ renderAttrs attrs ++ ">" ++ newl ++
        kids_writexml (k1 :: krest) (indent ++ addindent) addindent newl ++
        indent ++ "</" ++ tag ++ ">" ++ newl

/-- The child loop of the patched writexml: text children are skipped,
every other child is rendered at the deeper indent. -/
def kids_writexml : List Node → String → String → String → String
  | [], _, _, _ => ""
  | n :: rest, indent, addindent, newl =>
    (if n.isText then "" else fixed_writexml n indent addindent newl) ++
      kids_writexml rest indent addindent newl

end

-- ===========================================================================
-- Filesystem model and convert_xacro_to_urdf
-- ===========================================================================

/-- The filesystem as the program observes it: a mapping from (absolute)
paths to file contents, and the set of directories known to exist.
Ancestor directories implicitly created by os.makedirs are not tracked;
only membership of the full created path is ever observed. -/
structure PyFS where
  files : List (String × FileData)
  dirs : List String

/-- Model of os.path.abspath: paths are taken to be already absolute and
normalized, so abspath is the identity on them. -/
def pyAbspath (p : String) : String := p

/-- Model of posix os.path.dirname. -/
def dirname (p : String) : String :=
  let l := p.data
  if l.contains '/' then
    let head := (l.reverse.dropWhile (fun c => c ≠ '/')).reverse
    if head.all (fun c => c = '/') then String.mk head
    else String.mk ((head.reverse.dropWhile (fun c => c = '/')).reverse)
  else ""

/-- Model of posix os.path.basename. -/
def basename (p : String) : String :=
  String.mk ((p.data.reverse.takeWhile (fun c => c ≠ '/')).reverse)

/-- Model of os.path.isfile on the modelled filesystem. -/
def PyFS.isfile (fs : PyFS) (p : String) : Bool :=
  ((fs.files.find? (fun q => q.1 == p)).isSome)

/-- Model of os.makedirs with exist_ok: records the directory as existing. -/
def PyFS.mkdirs (fs : PyFS) (d : String) : PyFS :=
  { fs with dirs := if fs.dirs.contains d then fs.dirs else fs.dirs ++ [d] }

/-- Read a file's contents. -/
def PyFS.read (fs : PyFS) (p : String) : Option FileData :=
  (fs.files.find? (fun q => q.1 == p)).map Prod.snd

/-- Write a file, replacing any previous contents. -/
def PyFS.write (fs : PyFS) (p : String) (content : String) : PyFS :=
  { fs with files := dictInsert fs.files p (.raw content) }

/-- A line of 83 equals signs, the banner separator. -/
def bannerSep : String := String.mk (List.replicate 83 '=')

/-- The four banner comments inserted before the document's first child. -/
def bannerTexts (srcName : String) : List String :=
  [bannerSep,
   " Autogenerated from " ++ srcName ++ " ",
   " EDITING THIS FILE BY HAND IS NOT RECOMMENDED ",
   bannerSep]

/-- Model of doc.toprettyxml for the converted document: the XML
declaration, the banner comments, then the document element rendered with
two-space indent, as the patched writexml produces them. -/
def renderOutput (srcName : String) (root : Node) : String :=
  "<?xml version=\"1.0\" ?>\n" ++
    String.join ((bannerTexts srcName).map (fun c => "<!--" ++ c ++ "-->\n")) ++
    fixed_writexml root "" "  " "\n"

/-- Embedding of convert_xacro_to_urdf.  The resolve parameter abstracts
the find-token expansion and base-directory join applied to include
filenames (pure path-string rewriting); fuel bounds the number of include
splices.  Returns the filesystem after the call together with the raised
error, if any: a missing source fails before any directory is created;
the destination's parent directory is created before the source is
parsed; the destination file is written only after the whole pipeline has
succeeded. -/
def convert_xacro_to_urdf (resolve : String → String) (fuel : Nat) (fs : PyFS)
    (xacro_file output_urdf_path : String) : PyFS × Option ConvErr :=
  let src := pyAbspath xacro_file
  let dst := pyAbspath output_urdf_path
  if fs.isfile src then
    match (fs.mkdirs (dirname dst)).read src with
    | none => (fs.mkdirs (dirname dst), some .malformedXml)
    | some .invalid => (fs.mkdirs (dirname dst), some .malformedXml)
    | some (.raw _) => (fs.mkdirs (dirname dst), some .malformedXml)
    | some (.xml doc) =>
      match process_includes resolve (fs.mkdirs (dirname dst)).files fuel doc with
      | .error e => (fs.mkdirs (dirname dst), some e)
      | .ok (doc', _includes) =>
        match eval_self_contained doc' with
        | .error name => (fs.mkdirs (dirname dst), some (.undefinedSymbol name))
        | .ok doc'' =>
          ((fs.mkdirs (dirname dst)).write dst (renderOutput (basename src) doc'' ++ "\n"),
            none)
  else (fs, some (.fileNotFound src))

-- ===========================================================================
-- Lemmas about the text-splitting lexer and the eval_text loop
-- ===========================================================================

theorem takeToBrace_append (s r : List Char) (h : '}' ∉ s) :
    takeToBrace (s ++ '}' :: r) = some (s, r) := by
  induction s with
  | nil => simp [takeToBrace]
  | cons c t ih =>
    have hc : c ≠ '}' := by intro hc; exact h (hc ▸ List.mem_cons_self c t)
    have ht : '}' ∉ t := fun hm => h (List.mem_cons_of_mem c hm)
    simp [takeToBrace, hc, ih ht]

theorem takeToBrace_none (s : List Char) (h : '}' ∉ s) : takeToBrace s = none := by
  induction s with
  | nil => simp [takeToBrace]
  | cons c t ih =>
    have hc : c ≠ '}' := by intro hc; exact h (hc ▸ List.mem_cons_self c t)
    have ht : '}' ∉ t := fun hm => h (List.mem_cons_of_mem c hm)
    simp [takeToBrace, hc, ih ht]

theorem matchEXPR_cons_ne (c : Char) (r : List Char) (hc : c ≠ '$') :
    matchEXPR (c :: r) = none := by
  rw [matchEXPR.eq_def]
  split
  · rename_i heq
    injection heq with h1 h2
    exact absurd h1 hc
  · rfl

theorem eval_text_loop_expr (σ : Table) (fuel : Nat) (s inner rest : List Char)
    (hf : 0 < fuel) (h : matchEXPR s = some (inner, rest)) :
    eval_text_loop σ fuel s = (do
      let v ← eval_expr σ inner
      let tl ← eval_text_loop σ (fuel - 1) rest
      .ok (pyStr v :: tl)) := by
  match fuel, hf with
  | f + 1, _ => simp [eval_text_loop, h]

theorem eval_text_loop_text (σ : Table) (fuel : Nat) (s txt rest : List Char)
    (hf : 0 < fuel) (h1 : matchEXPR s = none) (h2 : matchTEXT s = some (txt, rest)) :
    eval_text_loop σ fuel s = (do
      let tl ← eval_text_loop σ (fuel - 1) rest
      .ok (String.mk txt :: tl)) := by
  match fuel, hf with
  | f + 1, _ => simp [eval_text_loop, h1, h2]

theorem eval_text_loop_stop (σ : Table) (fuel : Nat) (s : List Char)
    (h1 : matchEXPR s = none) (h2 : matchTEXT s = none) :
    eval_text_loop σ fuel s = .ok [] := by
  match fuel with
  | 0 => rfl
  | f + 1 => simp [eval_text_loop, h1, h2]

theorem eval_text_loop_nil (σ : Table) (fuel : Nat) :
    eval_text_loop σ fuel [] = .ok [] :=
  eval_text_loop_stop σ fuel [] rfl rfl

theorem textScan_cons_ne (c : Char) (r : List Char) (hc : c ≠ '$') :
    textScan (c :: r) = (c :: (textScan r).1, (textScan r).2) := by
  rw [textScan.eq_def]
  simp [hc]

theorem textScan_no_dollar (t : List Char) (h : '$' ∉ t) : textScan t = (t, []) := by
  induction t with
  | nil => rfl
  | cons c r ih =>
    have hc : c ≠ '$' := by intro hc; exact h (hc ▸ List.mem_cons_self c r)
    have hr : '$' ∉ r := fun hm => h (List.mem_cons_of_mem c hm)
    simp [textScan_cons_ne c _ hc, ih hr]

theorem textScan_dollar_end (t : List Char) (h : '$' ∉ t) :
    textScan (t ++ ['$']) = (t, ['$']) := by
  induction t with
  | nil => rfl
  | cons c r ih =>
    have hc : c ≠ '$' := by intro hc; exact h (hc ▸ List.mem_cons_self c r)
    have hr : '$' ∉ r := fun hm => h (List.mem_cons_of_mem c hm)
    simp [textScan_cons_ne c _ hc, ih hr]

theorem textScan_to_span (t u : List Char) (h : '$' ∉ t) :
    textScan (t ++ '$' :: '{' :: u) = (t, '$' :: '{' :: u) := by
  induction t with
  | nil => rfl
  | cons c r ih =>
    have hc : c ≠ '$' := by intro hc; exact h (hc ▸ List.mem_cons_self c r)
    have hr : '$' ∉ r := fun hm => h (List.mem_cons_of_mem c hm)
    simp [textScan_cons_ne c _ hc, ih hr]

theorem string_mk_data (s : String) : String.mk s.data = s := rfl

-- ===========================================================================
-- Fixed concrete symbol tables used by the claims
-- ===========================================================================

/-- The symbol table binding the single property x to the literal "5". -/
def tableX5 : Table := .root [("x", .str "5")]

/-- A symbol table whose value for x itself contains an expression span. -/
def tableNested : Table := .root [("x", .str "$\x7by\x7d"), ("y", .str "7")]

/-- The text of an expression span with interior s, dollar-brace wrapped. -/
def exprSpan (s : List Char) : String :=
  String.mk ('$' :: '{' :: (s ++ ['}']))

theorem string_join_single (x : String) : String.join [x] = x := by
  cases x
  rfl

-- ===========================================================================
-- Claims C1, C2, C3, C9: the expression evaluator and text substitution
-- ===========================================================================

/-- Claim C1, counterexample: the span with interior 1 + 2 does not
substitute as the string 1; eval_expr parses the first token as a float,
and str of the float 1.0 is 1.0. -/
theorem claim_C1_counterexample :
    eval_text (exprSpan ('1' :: ' ' :: '+' :: ' ' :: ['2'])) emptyTable ≠ .ok "1" ∧
    eval_text (exprSpan ('1' :: ' ' :: '+' :: ' ' :: ['2'])) emptyTable = .ok "1.0" := by
  constructor
  · decide
  · decide

/-- Claim C1 as amended: for every expression span whose token stream
begins with a number literal, evaluation consumes exactly that one token
(the result depends only on the literal, not on the remainder of the
span) and the substituted text is str of the float the literal parses
to, so the span with interior 1 + 2 substitutes as 1.0, not as 1. -/
theorem claim_C1_amended (σ : Table) (s tok rest : List Char) (f : PyFloat)
    (htok : exprNext s = some (.NUMBER, tok, rest))
    (hf : pyFloatParse (String.mk tok) = some f)
    (hnb : '}' ∉ s) :
    eval_text (exprSpan s) σ = .ok (pyStrOfFloat f) := by
  have hdata : (exprSpan s).data = '$' :: '{' :: (s ++ ['}']) := rfl
  have hexpr : matchEXPR ((exprSpan s).data) = some (s, []) := by
    rw [hdata]
    show takeToBrace (s ++ ['}']) = some (s, [])
    simpa using takeToBrace_append s [] hnb
  have hev : eval_expr σ s = .ok (.vfloat f) := by
    unfold eval_expr
    rw [htok]
    simp [hf]
  unfold eval_text
  rw [eval_text_loop_expr σ _ _ _ _ (by omega) hexpr, hev]
  rw [eval_text_loop_nil]
  show Except.ok (String.join [pyStrOfFloat f]) = Except.ok (pyStrOfFloat f)
  rw [string_join_single]

theorem claim_C1_amended_witness :
    eval_text (exprSpan ('1' :: ' ' :: '+' :: ' ' :: ['2'])) emptyTable = .ok "1.0" := by
  have h := claim_C1_amended emptyTable ('1' :: ' ' :: '+' :: ' ' :: ['2']) ['1']
    (' ' :: '+' :: ' ' :: ['2']) (.fin 1) (by decide) (by decide) (by decide)
  have hs : pyStrOfFloat (.fin 1) = "1.0" := by decide
  rw [hs] at h
  exact h

/-- Claim C2, counterexample: whitespace inside the braces is not
discarded by the expression lexer; with x bound to the literal 5, the
spans with interior " x " and " 5 " substitute to 0 while the span with
interior x substitutes to 5.0. -/
theorem claim_C2_counterexample :
    eval_text (exprSpan (' ' :: 'x' :: [' '])) tableX5 ≠
      eval_text (exprSpan ['x']) tableX5 ∧
    eval_text (exprSpan (' ' :: '5' :: [' '])) tableX5 ≠
      eval_text (exprSpan ['x']) tableX5 := by
  constructor
  · decide
  · decide

/-- Claim C2 as amended: the expression lexer does not discard
whitespace; it emits it as an IGNORE token.  Only the first token of the
span interior determines the result, so whitespace after the first token
is harmless, but a span whose interior begins with whitespace evaluates
to the int 0 and substitutes as 0: with x bound to "5", the span with
interior x gives 5.0 while the spans with interiors " x " and " 5 "
give 0. -/
theorem claim_C2_amended :
    (∀ (σ : Table) (s1 s2 : List Char), '}' ∉ s1 → '}' ∉ s2 →
        exprNext s1 = exprNext s2 →
        eval_text (exprSpan s1) σ = eval_text (exprSpan s2) σ) ∧
    (∀ (σ : Table) (s w rest : List Char), '}' ∉ s →
        exprNext s = some (.IGNORE, w, rest) →
        eval_text (exprSpan s) σ = .ok "0") ∧
    eval_text (exprSpan (' ' :: 'x' :: [' '])) tableX5 = .ok "0" ∧
    eval_text (exprSpan (' ' :: '5' :: [' '])) tableX5 = .ok "0" ∧
    eval_text (exprSpan ['x']) tableX5 = .ok "5.0" := by
  have span_eval : ∀ (σ : Table) (s : List Char), '}' ∉ s →
      eval_text (exprSpan s) σ =
        (eval_expr σ s).map (fun v => String.join [pyStr v]) := by
    intro σ s hnb
    have hexpr : matchEXPR ((exprSpan s).data) = some (s, []) := by
      show takeToBrace (s ++ ['}']) = some (s, [])
      simpa using takeToBrace_append s [] hnb
    unfold eval_text
    rw [eval_text_loop_expr σ _ _ _ _ (by omega) hexpr]
    rw [eval_text_loop_nil]
    cases h : eval_expr σ s with
    | error e => rfl
    | ok v => rfl
  refine ⟨?_, ?_, by decide, by decide, by decide⟩
  · intro σ s1 s2 h1 h2 heq
    rw [span_eval σ s1 h1, span_eval σ s2 h2]
    have : eval_expr σ s1 = eval_expr σ s2 := by
      unfold eval_expr
      rw [heq]
    rw [this]
  · intro σ s w rest hnb htok
    rw [span_eval σ s hnb]
    have hev : eval_expr σ s = .ok (.vint 0) := by
      unfold eval_expr
      rw [htok]
      simp
    rw [hev]
    decide

theorem claim_C2_amended_witness :
    eval_text (exprSpan (' ' :: 'x' :: [' '])) tableX5 = .ok "0" :=
  claim_C2_amended.2.1 tableX5 (' ' :: 'x' :: [' ']) [' '] ('x' :: [' '])
    (by decide) (by decide)

/-- Claim C3, counterexample: with x bound to the literal string 5, the
span with interior x does not substitute to 5: the value parses as a
float and str of the float renders 5.0. -/
theorem claim_C3_counterexample :
    eval_text (exprSpan ['x']) tableX5 ≠ .ok "5" ∧
    eval_text (exprSpan ['x']) tableX5 = .ok "5.0" := by
  constructor
  · decide
  · decide

/-- Claim C3 as amended: for the symbol table binding x to the literal
string 5, the text made of the single span over x substitutes to 5.0,
and the same span between the literals a and b substitutes to a5.0b (the
looked-up value is parsed as a float and rendered by str, which appends
a fractional part). -/
theorem claim_C3_amended :
    eval_text (exprSpan ['x']) tableX5 = .ok "5.0" ∧
    eval_text ("a" ++ exprSpan ['x'] ++ "b") tableX5 = .ok "a5.0b" := by
  constructor
  · decide
  · decide

/-- Claim C9: text substitution is total and silently truncates unmatched
input: for any text with no dollar sign followed by one trailing dollar,
substitution returns the text with the trailing dollar removed, and for
such a text followed by an unterminated span opener, everything from the
opener on is discarded; no error is raised in either case, whatever the
symbol table. -/
theorem claim_C9 (σ : Table) (t u : String)
    (ht : '$' ∉ t.data) (hu : '}' ∉ u.data) :
    eval_text (t ++ "$") σ = .ok t ∧
    eval_text (t ++ "$\x7b" ++ u) σ = .ok t := by
  have hstop : ∀ v : List Char, '}' ∉ v →
      eval_text_loop σ (('$' :: '{' :: v).length + 1) ('$' :: '{' :: v) = .ok [] := by
    intro v hv
    apply eval_text_loop_stop
    · show takeToBrace v = none
      exact takeToBrace_none v hv
    · show matchTEXT ('$' :: '{' :: v) = none
      unfold matchTEXT
      rw [textScan.eq_def]
      simp
  constructor
  · show ((eval_text_loop σ ((t ++ "$").data.length + 1) (t ++ "$").data).map String.join) = .ok t
    have hdata : (t ++ "$").data = t.data ++ ['$'] := by
      rw [String.data_append]
    rw [hdata]
    cases hT : t.data with
    | nil =>
      have ht0 : t = "" := by
        have h1 := string_mk_data t
        rw [hT] at h1
        exact h1.symm
      have h0 : eval_text_loop σ ((([] : List Char) ++ ['$']).length + 1) ([] ++ ['$']) =
          .ok [] := eval_text_loop_stop σ _ _ (by decide) (by decide)
      rw [h0, ht0]
      rfl
    | cons c r =>
      have hc : c ≠ '$' := by
        intro hc
        exact ht (by rw [hT, hc]; exact List.mem_cons_self _ _)
      have hr : '$' ∉ t.data := ht
      rw [← hT]
      have hme : matchEXPR (t.data ++ ['$']) = none := by
        rw [hT]
        exact matchEXPR_cons_ne c (r ++ ['$']) hc
      have hmt : matchTEXT (t.data ++ ['$']) = some (t.data, ['$']) := by
        unfold matchTEXT
        rw [textScan_dollar_end t.data hr]
        simp [hT]
      rw [eval_text_loop_text σ _ _ _ _ (by omega) hme hmt]
      have hstop2 : eval_text_loop σ ((t.data ++ ['$']).length + 1 - 1) ['$'] = .ok [] := by
        apply eval_text_loop_stop <;> decide
      rw [hstop2]
      show Except.ok (String.join [String.mk t.data]) = Except.ok t
      rw [string_join_single, string_mk_data]
  · show ((eval_text_loop σ ((t ++ "$\x7b" ++ u).data.length + 1) (t ++ "$\x7b" ++ u).data).map String.join) = .ok t
    have hdata : (t ++ "$\x7b" ++ u).data = t.data ++ '$' :: '{' :: u.data := by
      rw [String.data_append, String.data_append, List.append_assoc]
      rfl
    rw [hdata]
    cases hT : t.data with
    | nil =>
      have ht0 : t = "" := by
        have h1 := string_mk_data t
        rw [hT] at h1
        exact h1.symm
      simp only [List.nil_append]
      rw [hstop u.data hu, ht0]
      rfl
    | cons c r =>
      have hc : c ≠ '$' := by
        intro hc
        exact ht (by rw [hT, hc]; exact List.mem_cons_self _ _)
      rw [← hT]
      have hme : matchEXPR (t.data ++ '$' :: '{' :: u.data) = none := by
        rw [hT]
        exact matchEXPR_cons_ne c _ hc
      have hmt : matchTEXT (t.data ++ '$' :: '{' :: u.data) =
          some (t.data, '$' :: '{' :: u.data) := by
        unfold matchTEXT
        rw [textScan_to_span t.data u.data ht]
        simp [hT]
      rw [eval_text_loop_text σ _ _ _ _ (by omega) hme hmt]
      have hstop2 : eval_text_loop σ ((t.data ++ '$' :: '{' :: u.data).length + 1 - 1)
          ('$' :: '{' :: u.data) = .ok [] := by
        apply eval_text_loop_stop
        · exact takeToBrace_none u.data hu
        · unfold matchTEXT
          rw [textScan.eq_def]
          simp
      rw [hstop2]
      show Except.ok (String.join [String.mk t.data]) = Except.ok t
      rw [string_join_single, string_mk_data]

theorem claim_C9_witness :
    eval_text ("a" ++ "$") (Table.root []) = .ok "a" ∧
    eval_text ("a" ++ "$\x7b" ++ "unclosed") (Table.root []) = .ok "a" :=
  claim_C9 (Table.root []) "a" "unclosed" (by decide) (by decide)

-- ===========================================================================
-- Claim C5: idempotence of the substitution walk
-- ===========================================================================

theorem except_bind_ok {ε α β : Type} (a : α) (f : α → Except ε β) :
    (Except.ok a >>= f) = f a := rfl

theorem except_bind_err {ε α β : Type} (e : ε) (f : α → Except ε β) :
    ((Except.error e : Except ε α) >>= f) = Except.error e := rfl

/-- A string the TEXT unit scan consumes entirely; such strings pass
through eval_text unchanged. -/
def scanPure (s : List Char) : Prop := textScan s = (s, [])

theorem textScan_dollar_cons (c2 : Char) (r2 : List Char) (h : c2 ≠ '{') :
    textScan ('$' :: c2 :: r2) = ('$' :: c2 :: (textScan r2).1, (textScan r2).2) := by
  rw [textScan.eq_def]
  simp [h]

theorem textScan_fst_pure (s : List Char) : scanPure (textScan s).1 := by
  induction s using textScan.induct with
  | case1 => rfl
  | case2 => rfl
  | case3 r2 => rfl
  | case4 c2 r2 hne ih =>
    rw [textScan_dollar_cons c2 r2 hne]
    show textScan ('$' :: c2 :: (textScan r2).1) = _
    rw [textScan_dollar_cons c2 _ hne, ih]
  | case5 c r hne ih =>
    rw [textScan_cons_ne c r hne]
    show textScan (c :: (textScan r).1) = _
    rw [textScan_cons_ne c _ hne, ih]

theorem scanPure_append (a b : List Char) (ha : scanPure a) (hb : scanPure b) :
    scanPure (a ++ b) := by
  induction a using textScan.induct with
  | case1 => exact hb
  | case2 =>
    unfold scanPure at ha
    exact absurd ha (by decide)
  | case3 r2 =>
    have : textScan ('$' :: '{' :: r2) = ([], '$' :: '{' :: r2) := by
      rw [textScan.eq_def]
      simp
    rw [scanPure, this] at ha
    simp at ha
  | case4 c2 r2 hne ih =>
    rw [scanPure, textScan_dollar_cons c2 r2 hne] at ha
    have h1 : (textScan r2).1 = r2 := by
      have := congrArg Prod.fst ha
      simpa using this
    have h2 : (textScan r2).2 = [] := congrArg Prod.snd ha
    have hr2 : scanPure r2 := Prod.ext_iff.mpr ⟨h1, h2⟩
    have hih := ih hr2
    show textScan ('$' :: c2 :: (r2 ++ b)) = _
    rw [textScan_dollar_cons c2 _ hne, hih]
    simp
  | case5 c r hne ih =>
    rw [scanPure, textScan_cons_ne c r hne] at ha
    have h1 : (textScan r).1 = r := by
      have := congrArg Prod.fst ha
      simpa using this
    have h2 : (textScan r).2 = [] := congrArg Prod.snd ha
    have hr : scanPure r := Prod.ext_iff.mpr ⟨h1, h2⟩
    have hih := ih hr
    show textScan (c :: (r ++ b)) = _
    rw [textScan_cons_ne c _ hne, hih]
    simp

theorem scanPure_flatten (l : List (List Char)) (h : ∀ p ∈ l, scanPure p) :
    scanPure l.flatten := by
  induction l with
  | nil => rfl
  | cons x xs ih =>
    rw [List.flatten_cons]
    exact scanPure_append x xs.flatten (h x (List.mem_cons_self _ _))
      (ih fun p hp => h p (List.mem_cons_of_mem _ hp))

theorem string_join_data (l : List String) :
    (String.join l).data = (l.map String.data).flatten := by
  have aux : ∀ acc : String, (l.foldl (fun r s => r ++ s) acc).data =
      acc.data ++ (l.map String.data).flatten := by
    induction l with
    | nil => intro acc; simp
    | cons x xs ih =>
      intro acc
      simp only [List.foldl_cons, List.map_cons, List.flatten_cons]
      rw [ih, String.data_append, List.append_assoc]
  exact aux ""

/-- Strings the scan consumes entirely are eval_text fixed points. -/
theorem eval_text_pure_fixed (σ : Table) (s : List Char) (hp : scanPure s) :
    eval_text (String.mk s) σ = .ok (String.mk s) := by
  cases s with
  | nil =>
    show (eval_text_loop σ _ []).map String.join = _
    rw [eval_text_loop_nil]
    rfl
  | cons c r =>
    have hme : matchEXPR (c :: r) = none := by
      by_cases hc : c = '$'
      · subst hc
        cases r with
        | nil => rfl
        | cons c2 r2 =>
          by_cases h2 : c2 = '{'
          · subst h2
            have : textScan ('$' :: '{' :: r2) = ([], '$' :: '{' :: r2) := by
              rw [textScan.eq_def]
              simp
            rw [scanPure, this] at hp
            simp at hp
          · rw [matchEXPR.eq_def]
            split
            · rename_i heq
              injection heq with e1 e2
              injection e2 with e3 e4
              exact absurd e3 h2
            · rfl
      · exact matchEXPR_cons_ne c r hc
    have hmt : matchTEXT (c :: r) = some (c :: r, []) := by
      unfold matchTEXT
      rw [hp]
      simp
    show (eval_text_loop σ ((c :: r).length + 1) (c :: r)).map String.join = _
    rw [eval_text_loop_text σ _ _ _ _ (by omega) hme hmt, eval_text_loop_nil]
    show Except.ok (String.join [String.mk (c :: r)]) = _
    rw [string_join_single]

theorem natDigitChar_ne_dollar (d : Nat) : natDigitChar d ≠ '$' := by
  match d with
  | 0 | 1 | 2 | 3 | 4 | 5 | 6 | 7 | 8 | 9 => decide
  | n + 10 =>
    show ('?' : Char) ≠ '$'
    decide

theorem natToStrAux_no_dollar (fuel : Nat) :
    ∀ (n : Nat) (acc : List Char), '$' ∉ acc → '$' ∉ natToStrAux fuel n acc := by
  induction fuel with
  | zero => intro n acc hacc; exact hacc
  | succ f ih =>
    intro n acc hacc
    unfold natToStrAux
    by_cases h : n < 10
    · simp only [h, if_true]
      intro hm
      cases List.mem_cons.1 hm with
      | inl h1 => exact natDigitChar_ne_dollar n h1.symm
      | inr h2 => exact hacc h2
    · simp only [h, if_false]
      apply ih
      intro hm
      cases List.mem_cons.1 hm with
      | inl h1 => exact natDigitChar_ne_dollar (n % 10) h1.symm
      | inr h2 => exact hacc h2

theorem natToStr_no_dollar (n : Nat) : '$' ∉ (natToStr n).data :=
  natToStrAux_no_dollar (n + 1) n [] (by simp)

theorem intToStr_no_dollar (n : ℤ) : '$' ∉ (intToStr n).data := by
  unfold intToStr
  by_cases h : n < 0
  · simp only [h, if_true]
    rw [String.data_append]
    intro hm
    cases List.mem_append.1 hm with
    | inl h1 => simp at h1
    | inr h2 => exact natToStr_no_dollar n.natAbs h2
  · simp only [h, if_false]
    exact natToStr_no_dollar n.natAbs

theorem pyStrOfFloat_no_dollar (f : PyFloat) : '$' ∉ (pyStrOfFloat f).data := by
  match f with
  | .nan => decide
  | .inf false => decide
  | .inf true => decide
  | .fin q =>
    unfold pyStrOfFloat
    by_cases h : q.den = 1
    · simp only [h, if_true]
      rw [String.data_append]
      intro hm
      cases List.mem_append.1 hm with
      | inl h1 => exact intToStr_no_dollar q.num h1
      | inr h2 => simp at h2
    · simp only [h, if_false]
      unfold renderDecimal padDigits
      intro hm
      rw [String.data_append, String.data_append, String.data_append] at hm
      rcases List.mem_append.1 hm with hm1 | hm4
      · rcases List.mem_append.1 hm1 with hm2 | hm3
        · rcases List.mem_append.1 hm2 with hs | hn
          · by_cases hq : q < 0 <;> simp [hq] at hs
          · exact natToStr_no_dollar _ hn
        · simp at hm3
      · rw [String.data_append] at hm4
        rcases List.mem_append.1 hm4 with hz | hn
        · simp [List.mem_replicate] at hz
        · exact natToStr_no_dollar _ hn

/-- A property value whose rendering cannot open an expression span. -/
def valueClean : Value → Prop
  | .str s => '$' ∉ s.data
  | .domElem n => '$' ∉ (domElemStr n).data

/-- A symbol table all of whose reachable values are clean. -/
def tableClean : Table → Prop
  | .root es => ∀ p ∈ es, valueClean p.2
  | .child es par => (∀ p ∈ es, valueClean p.2) ∧ tableClean par

theorem table_getitem_clean (σ : Table) (hσ : tableClean σ) (k : String) (v : Value)
    (h : σ.getitem k = some v) : valueClean v := by
  induction σ with
  | root es =>
    unfold Table.getitem at h
    cases hf : es.find? (fun p => p.1 == k) with
    | none => rw [hf] at h; simp at h
    | some p =>
      rw [hf] at h
      simp at h
      have hm := List.find?_some hf
      have hmem := List.mem_of_find?_eq_some hf
      rw [← h]
      exact hσ p hmem
  | child es par ih =>
    unfold Table.getitem at h
    cases hf : es.find? (fun p => p.1 == k) with
    | none =>
      rw [hf] at h
      simp at h
      exact ih hσ.2 h
    | some p =>
      rw [hf] at h
      simp at h
      have hmem := List.mem_of_find?_eq_some hf
      rw [← h]
      exact hσ.1 p hmem

theorem eval_expr_clean (σ : Table) (hσ : tableClean σ) (s : List Char) (v : PyVal)
    (h : eval_expr σ s = .ok v) : '$' ∉ (pyStr v).data := by
  cases hn : exprNext s with
  | none =>
    have heval : eval_expr σ s = .ok (.vint 0) := by
      unfold eval_expr
      rw [hn]
    rw [heval] at h
    injection h with h
    rw [← h]
    decide
  | some trip =>
    obtain ⟨k, tok, rest⟩ := trip
    by_cases hk : k = .NUMBER ∨ k = .SYMBOL
    · cases hp : pyFloatParse (String.mk tok) with
      | some f =>
        have heval : eval_expr σ s = .ok (.vfloat f) := by
          unfold eval_expr
          rw [hn]
          simp [hk, hp]
        rw [heval] at h
        injection h with h
        rw [← h]
        exact pyStrOfFloat_no_dollar f
      | none =>
        cases hg : σ.getitem (String.mk tok) with
        | none =>
          have heval : eval_expr σ s = .error (String.mk tok) := by
            unfold eval_expr
            rw [hn]
            simp [hk, hp, hg]
          rw [heval] at h
          cases h
        | some val =>
          have hclean := table_getitem_clean σ hσ _ _ hg
          cases val with
          | str sv =>
            cases hp2 : pyFloatParse sv with
            | some f =>
              have heval : eval_expr σ s = .ok (.vfloat f) := by
                unfold eval_expr
                rw [hn]
                simp [hk, hp, hg, hp2]
              rw [heval] at h
              injection h with h
              rw [← h]
              exact pyStrOfFloat_no_dollar f
            | none =>
              have heval : eval_expr σ s = .ok (.vstr sv) := by
                unfold eval_expr
                rw [hn]
                simp [hk, hp, hg, hp2]
              rw [heval] at h
              injection h with h
              rw [← h]
              exact hclean
          | domElem e =>
            have heval : eval_expr σ s = .ok (.vstr (domElemStr e)) := by
              unfold eval_expr
              rw [hn]
              simp [hk, hp, hg]
            rw [heval] at h
            injection h with h
            rw [← h]
            exact hclean
    · have heval : eval_expr σ s = .ok (.vint 0) := by
        unfold eval_expr
        rw [hn]
        simp [hk]
      rw [heval] at h
      injection h with h
      rw [← h]
      decide

theorem eval_text_loop_pieces (σ : Table) (hσ : tableClean σ) (fuel : Nat) :
    ∀ (s : List Char) (pieces : List String),
      eval_text_loop σ fuel s = .ok pieces → ∀ p ∈ pieces, scanPure p.data := by
  induction fuel with
  | zero =>
    intro s pieces h p hp
    injection h with h
    rw [← h] at hp
    simp at hp
  | succ f ih =>
    intro s pieces h p hp
    cases hE : matchEXPR s with
    | some pr =>
      obtain ⟨inner, rest⟩ := pr
      rw [eval_text_loop_expr σ (f + 1) s inner rest (by omega) hE] at h
      simp only [Nat.add_sub_cancel] at h
      cases hv : eval_expr σ inner with
      | error e => rw [hv, except_bind_err] at h; cases h
      | ok v =>
        rw [hv, except_bind_ok] at h
        cases ht : eval_text_loop σ f rest with
        | error e => rw [ht, except_bind_err] at h; cases h
        | ok tl =>
          rw [ht, except_bind_ok] at h
          injection h with h
          rw [← h] at hp
          cases List.mem_cons.1 hp with
          | inl h1 =>
            rw [h1]
            have := eval_expr_clean σ hσ inner v hv
            exact textScan_no_dollar _ this
          | inr h2 => exact ih rest tl ht p h2
    | none =>
      cases hT : matchTEXT s with
      | none =>
        rw [eval_text_loop_stop σ (f + 1) s hE hT] at h
        injection h with h
        rw [← h] at hp
        simp at hp
      | some pr =>
        obtain ⟨txt, rest⟩ := pr
        rw [eval_text_loop_text σ (f + 1) s txt rest (by omega) hE hT] at h
        simp only [Nat.add_sub_cancel] at h
        cases ht : eval_text_loop σ f rest with
        | error e => rw [ht, except_bind_err] at h; cases h
        | ok tl =>
          rw [ht, except_bind_ok] at h
          injection h with h
          rw [← h] at hp
          cases List.mem_cons.1 hp with
          | inl h1 =>
            rw [h1]
            show scanPure (String.mk txt).data
            have htxt : txt = (textScan s).1 := by
              unfold matchTEXT at hT
              by_cases hz : (textScan s).1 = []
              · rw [if_pos hz] at hT; cases hT
              · rw [if_neg hz] at hT
                injection hT with hT
                exact (congrArg Prod.fst hT).symm
            rw [show (String.mk txt).data = txt from rfl, htxt]
            exact textScan_fst_pure s
          | inr h2 => exact ih rest tl ht p h2

/-- The central idempotence fact at string level: with a clean symbol
table, the output of eval_text is an eval_text fixed point. -/
theorem eval_text_idem (σ : Table) (hσ : tableClean σ) (t out : String)
    (h : eval_text t σ = .ok out) : eval_text out σ = .ok out := by
  unfold eval_text at h
  cases hl : eval_text_loop σ (t.data.length + 1) t.data with
  | error e => rw [hl] at h; cases h
  | ok pieces =>
    rw [hl] at h
    injection h with h
    have hpure : ∀ p ∈ pieces, scanPure p.data :=
      eval_text_loop_pieces σ hσ _ t.data pieces hl
    have hout : scanPure out.data := by
      rw [← h, string_join_data]
      apply scanPure_flatten
      intro p hp
      rcases List.mem_map.1 hp with ⟨x, hx, rfl⟩
      exact hpure x hx
    have := eval_text_pure_fixed σ out.data hout
    rw [string_mk_data] at this
    exact this

theorem eval_all_list_nil (σ : Table) : eval_all_list σ [] = .ok [] := by
  simp [eval_all_list]

theorem evalAttrs_idem (σ : Table) (hσ : tableClean σ) :
    ∀ (attrs attrs' : List (String × String)),
      evalAttrs σ attrs = .ok attrs' → evalAttrs σ attrs' = .ok attrs' := by
  intro attrs
  induction attrs with
  | nil =>
    intro attrs' h
    injection h with h
    rw [← h]
    rfl
  | cons kv r ih =>
    intro attrs' h
    unfold evalAttrs at h
    cases hv : eval_text kv.2 σ with
    | error e => rw [hv] at h; cases h
    | ok v' =>
      rw [hv] at h
      cases hr : evalAttrs σ r with
      | error e => rw [hr] at h; cases h
      | ok r' =>
        rw [hr] at h
        injection h with h
        rw [← h]
        unfold evalAttrs
        rw [eval_text_idem σ hσ _ _ hv, except_bind_ok, ih r' hr, except_bind_ok]

theorem eval_all_list_idem (σ : Table) (hσ : tableClean σ) :
    ∀ (l l' : List Node), eval_all_list σ l = .ok l' → eval_all_list σ l' = .ok l' := by
  intro l
  induction l using eval_all_list.induct σ with
  | case1 =>
    intro l' h
    rw [eval_all_list_nil] at h
    injection h with h
    rw [← h]
    exact eval_all_list_nil σ
  | case2 tag attrs kids rest ihk ihr =>
    intro l' h
    unfold eval_all_list at h
    cases ha : evalAttrs σ attrs with
    | error e => rw [ha] at h; cases h
    | ok attrs' =>
      rw [ha] at h
      cases hk : eval_all_list σ kids with
      | error e => rw [hk] at h; cases h
      | ok kids' =>
        rw [hk] at h
        cases hr : eval_all_list σ rest with
        | error e => rw [hr] at h; cases h
        | ok rest' =>
          rw [hr] at h
          injection h with h
          rw [← h]
          unfold eval_all_list
          rw [evalAttrs_idem σ hσ _ _ ha, except_bind_ok, ihk kids' hk, except_bind_ok,
            ihr rest' hr, except_bind_ok]
  | case3 d rest ihr =>
    intro l' h
    unfold eval_all_list at h
    cases hd : eval_text d σ with
    | error e => rw [hd] at h; cases h
    | ok d' =>
      rw [hd] at h
      cases hr : eval_all_list σ rest with
      | error e => rw [hr] at h; cases h
      | ok rest' =>
        rw [hr] at h
        injection h with h
        rw [← h]
        unfold eval_all_list
        rw [eval_text_idem σ hσ _ _ hd, except_bind_ok, ihr rest' hr, except_bind_ok]
  | case4 d rest hne1 hne2 ih =>
    intro l' h
    cases d with
    | elem tag attrs kids => exact (hne1 tag attrs kids rfl).elim
    | text s => exact (hne2 s rfl).elim
    | comment c =>
      simp only [eval_all_list] at h
      cases hr : eval_all_list σ rest with
      | error e => rw [hr, except_bind_err] at h; cases h
      | ok rest' =>
        rw [hr, except_bind_ok] at h
        injection h with h
        rw [← h]
        simp only [eval_all_list]
        rw [ih rest' hr, except_bind_ok]

/-- Claim C5, counterexample: substitution is not idempotent for every
tree and symbol table: when the value of x itself contains an expression
span over y, the first walk leaves that span in the tree and the second
walk expands it further. -/
theorem claim_C5_counterexample :
    eval_all (.elem "robot" [] [.text (exprSpan ['x'])]) [] tableNested =
      .ok (.elem "robot" [] [.text "$\x7by\x7d"]) ∧
    eval_all (.elem "robot" [] [.text "$\x7by\x7d"]) [] tableNested ≠
      .ok (.elem "robot" [] [.text "$\x7by\x7d"]) := by
  have h1 : eval_text (exprSpan ['x']) tableNested = .ok "$\x7by\x7d" := by decide
  have h2 : eval_text "$\x7by\x7d" tableNested = .ok "7.0" := by decide
  constructor
  · simp [eval_all, eval_all_list, evalAttrs, h1, except_bind_ok]
  · simp [eval_all, eval_all_list, evalAttrs, h2, except_bind_ok]

/-- Claim C5 as amended: running the substitution walk a second time over
the tree produced by a first run (symbol table unchanged) leaves every
attribute value and text node unchanged, provided no value reachable in
the symbol table renders with a dollar character (the counterexample
forces this restriction: a property value that itself contains an
expression span is expanded again by the second run). -/
theorem claim_C5_amended (σ : Table) (ms : List (String × Node)) (root out : Node)
    (hσ : tableClean σ) (h : eval_all root ms σ = .ok out) :
    eval_all out ms σ = .ok out := by
  unfold eval_all at h ⊢
  cases hl : eval_all_list σ [root] with
  | error e => rw [hl] at h; cases h
  | ok l' =>
    rw [hl] at h
    injection h with h
    have hidem := eval_all_list_idem σ hσ [root] l' hl
    have hlen : ∃ n', l' = [n'] := by
      cases root with
      | elem tag attrs kids =>
        simp only [eval_all_list] at hl
        cases ha : evalAttrs σ attrs with
        | error e => rw [ha, except_bind_err] at hl; cases hl
        | ok attrs' =>
          rw [ha, except_bind_ok] at hl
          cases hk : eval_all_list σ kids with
          | error e => rw [hk, except_bind_err] at hl; cases hl
          | ok kids' =>
            rw [hk, except_bind_ok, except_bind_ok] at hl
            injection hl with hl
            exact ⟨_, hl.symm⟩
      | text d =>
        simp only [eval_all_list] at hl
        cases hd : eval_text d σ with
        | error e => rw [hd, except_bind_err] at hl; cases hl
        | ok d' =>
          rw [hd, except_bind_ok, except_bind_ok] at hl
          injection hl with hl
          exact ⟨_, hl.symm⟩
      | comment d =>
        simp only [eval_all_list] at hl
        rw [except_bind_ok] at hl
        injection hl with hl
        exact ⟨_, hl.symm⟩
    obtain ⟨n', rfl⟩ := hlen
    simp only [List.headD] at h
    subst h
    rw [hidem, except_bind_ok]
    rfl

theorem claim_C5_amended_witness :
    eval_all (.elem "robot" [] [.text "a5.0b"]) [] tableX5 =
      .ok (.elem "robot" [] [.text "a5.0b"]) := by
  have h1 : eval_text ("a" ++ exprSpan ['x'] ++ "b") tableX5 = .ok "a5.0b" := by decide
  have h : eval_all (.elem "robot" [] [.text ("a" ++ exprSpan ['x'] ++ "b")]) [] tableX5 =
      .ok (.elem "robot" [] [.text "a5.0b"]) := by
    simp [eval_all, eval_all_list, evalAttrs, h1, except_bind_ok, List.headD]
  have hclean : tableClean tableX5 := by
    intro p hp
    simp at hp
    subst hp
    show ('$' : Char) ∉ "5".data
    decide
  exact claim_C5_amended tableX5 [] _ _ hclean h

-- ===========================================================================
-- Claim C8: macro and property extraction
-- ===========================================================================

theorem containsTagIn_nil (tags : List String) : containsTagIn tags [] = false := by
  simp [containsTagIn]

theorem grab_macros_list_nil : grab_macros_list [] = ([], []) := by
  simp [grab_macros_list]

theorem grab_properties_list_nil : grab_properties_list [] = ([], []) := by
  simp [grab_properties_list]

theorem containsTagIn_text (tags : List String) (d : String) (rest : List Node) :
    containsTagIn tags (.text d :: rest) = containsTagIn tags rest := by
  simp only [containsTagIn]

theorem containsTagIn_comment (tags : List String) (d : String) (rest : List Node) :
    containsTagIn tags (.comment d :: rest) = containsTagIn tags rest := by
  simp only [containsTagIn]

theorem containsTagIn_elem (tags : List String) (t : String)
    (a : List (String × String)) (kids rest : List Node) :
    containsTagIn tags (.elem t a kids :: rest) =
      (tags.contains t || containsTagIn tags kids || containsTagIn tags rest) := by
  simp only [containsTagIn]

theorem macroTags_contains_false (t : String)
    (h : ¬(t = "macro" ∨ t = "xacro:macro")) : macroTags.contains t = false := by
  simp [macroTags]
  tauto

theorem propertyTags_contains_false (t : String)
    (h : ¬(t = "property" ∨ t = "xacro:property")) :
    propertyTags.contains t = false := by
  simp [propertyTags]
  tauto

theorem grab_macros_list_no_macro (l : List Node) :
    containsTagIn macroTags (grab_macros_list l).1 = false := by
  induction l using grab_macros_list.induct with
  | case1 =>
    rw [grab_macros_list_nil]
    exact containsTagIn_nil _
  | case2 tag attrs kids rest htag ih =>
    simp only [grab_macros_list, htag, if_true]
    exact ih
  | case3 tag attrs kids rest htag ihk ihr =>
    simp only [grab_macros_list, htag, if_false]
    rw [containsTagIn_elem]
    rw [macroTags_contains_false tag htag, ihk, ihr]
    rfl
  | case4 n rest hne1 ih =>
    cases n with
    | elem t a k => exact (hne1 t a k rfl).elim
    | text d =>
      simp only [grab_macros_list]
      rw [containsTagIn_text]
      exact ih
    | comment d =>
      simp only [grab_macros_list]
      rw [containsTagIn_comment]
      exact ih

theorem grab_macros_list_pairs (l : List Node) :
    ∃ core : List (String × Node),
      (grab_macros_list l).2 =
        core.flatMap (fun p => [(p.1, p.2), ("xacro:" ++ p.1, p.2)]) := by
  induction l using grab_macros_list.induct with
  | case1 =>
    refine ⟨[], ?_⟩
    rw [grab_macros_list_nil]
    simp
  | case2 tag attrs kids rest htag ih =>
    obtain ⟨core, hc⟩ := ih
    refine ⟨(getAttribute attrs "name", .elem tag attrs kids) :: core, ?_⟩
    simp only [grab_macros_list, htag, if_true, List.flatMap_cons, hc]
    rfl
  | case3 tag attrs kids rest htag ihk ihr =>
    obtain ⟨ck, hck⟩ := ihk
    obtain ⟨cr, hcr⟩ := ihr
    refine ⟨ck ++ cr, ?_⟩
    simp only [grab_macros_list, htag, if_false, hck, hcr, List.flatMap_append]
  | case4 n rest hne1 ih =>
    simpa only [grab_macros_list] using ih

theorem grab_properties_list_no_property (l : List Node) :
    containsTagIn propertyTags (grab_properties_list l).1 = false := by
  induction l using grab_properties_list.induct with
  | case1 =>
    rw [grab_properties_list_nil]
    exact containsTagIn_nil _
  | case2 tag attrs kids rest htag ih =>
    simp only [grab_properties_list, htag, if_true]
    exact ih
  | case3 tag attrs kids rest htag ihk ihr =>
    simp only [grab_properties_list, htag, if_false]
    rw [containsTagIn_elem]
    rw [propertyTags_contains_false tag htag, ihk, ihr]
    rfl
  | case4 n rest hne1 ih =>
    cases n with
    | elem t a k => exact (hne1 t a k rfl).elim
    | text d =>
      simp only [grab_properties_list]
      rw [containsTagIn_text]
      exact ih
    | comment d =>
      simp only [grab_properties_list]
      rw [containsTagIn_comment]
      exact ih

/-- Claim C8, counterexample: the scans of grab_macros and
grab_properties start at next_element of the document element, so a
document whose root element is itself a macro definition keeps it: after
extraction the tree still contains a macro-definition element and
nothing was recorded. -/
theorem claim_C8_counterexample :
    (grab_macros (.elem "macro" [("name", "m")] [])).1 =
      .elem "macro" [("name", "m")] [] ∧
    containsTagIn macroTags [(grab_macros (.elem "macro" [("name", "m")] [])).1] = true ∧
    (grab_macros (.elem "macro" [("name", "m")] [])).2 = [] := by
  refine ⟨?_, ?_, ?_⟩
  · simp [grab_macros, grab_macros_list]
  · simp [grab_macros, grab_macros_list, containsTagIn, macroTags]
  · simp [grab_macros, grab_macros_list]

/-- Claim C8 as amended: provided the root element is not itself a
macro-definition (resp. property-definition) element — the scan starts
below the root and never examines it — the tree after macro extraction
contains zero macro-definition elements and the tree after property
extraction contains zero property-definition elements; the macro table
records every extracted subtree under both its bare declared name and
the name with the literal xacro: prefix; and in a document holding one
property definition, one macro definition and an expression span, the
full self-contained evaluation strips both definitions while the span
still substitutes using the extracted value. -/
theorem claim_C8_amended :
    (∀ (tag : String) (attrs : List (String × String)) (kids : List Node),
        ¬(tag = "macro" ∨ tag = "xacro:macro") →
        containsTagIn macroTags [(grab_macros (.elem tag attrs kids)).1] = false) ∧
    (∀ kids : List Node, ∃ core : List (String × Node),
        (grab_macros_list kids).2 =
          core.flatMap (fun p => [(p.1, p.2), ("xacro:" ++ p.1, p.2)])) ∧
    (∀ (tag : String) (attrs : List (String × String)) (kids : List Node),
        ¬(tag = "property" ∨ tag = "xacro:property") →
        containsTagIn propertyTags [(grab_properties (.elem tag attrs kids)).1] = false) ∧
    eval_self_contained (.elem "robot" []
        [.elem "property" [("name", "x"), ("value", "5")] [],
         .elem "macro" [("name", "m")] [.elem "leg" [] []],
         .text (exprSpan ['x'])]) =
      .ok (.elem "robot" [] [.text "5.0"]) := by
  refine ⟨?_, grab_macros_list_pairs, ?_, ?_⟩
  · intro tag attrs kids htag
    simp only [grab_macros]
    rw [containsTagIn_elem, macroTags_contains_false tag htag,
      grab_macros_list_no_macro kids, containsTagIn_nil]
    rfl
  · intro tag attrs kids htag
    simp only [grab_properties]
    rw [containsTagIn_elem, propertyTags_contains_false tag htag,
      grab_properties_list_no_property kids, containsTagIn_nil]
    rfl
  · have h1 : eval_text (exprSpan ['x']) (Table.root [("x", Value.str "5")]) =
        .ok "5.0" := by decide
    simp [eval_self_contained, grab_macros, grab_macros_list, grab_properties,
      grab_properties_list, getAttribute, hasAttribute, Table.setitem, dictInsert,
      eval_all, eval_all_list, evalAttrs, except_bind_ok, List.headD, h1]

theorem claim_C8_amended_witness :
    containsTagIn macroTags [(grab_macros (.elem "robot" [] [])).1] = false :=
  claim_C8_amended.1 "robot" [] [] (by decide)

-- ===========================================================================
-- Claim C7: the serializer
-- ===========================================================================

/-- Name order on attribute pairs, the sort key of the serializer: p is
at most q when q's name is not strictly below p's. -/
def attrLE (p q : String × String) : Prop := strLt q.1 p.1 = false

theorem string_empty_append (s : String) : "" ++ s = s := rfl

theorem charListLt_asymm : ∀ a b : List Char,
    charListLt a b = true → charListLt b a = false := by
  intro a
  induction a with
  | nil =>
    intro b h
    cases b with
    | nil => cases h
    | cons c cs => rfl
  | cons x xs ih =>
    intro b h
    cases b with
    | nil => cases h
    | cons y ys =>
      unfold charListLt at h ⊢
      by_cases hxy : x < y
      · rw [if_neg (lt_asymm hxy), if_pos hxy]
      · rw [if_neg hxy] at h
        by_cases hyx : y < x
        · rw [if_pos hyx] at h
          cases h
        · rw [if_neg hyx] at h
          rw [if_neg hyx, if_neg hxy]
          exact ih ys h

theorem charListLt_trans : ∀ a b c : List Char,
    charListLt a b = true → charListLt b c = true → charListLt a c = true := by
  intro a
  induction a with
  | nil =>
    intro b c hab hbc
    cases b with
    | nil => cases hab
    | cons y ys =>
      cases c with
      | nil => cases hbc
      | cons z zs => rfl
  | cons x xs ih =>
    intro b c hab hbc
    cases b with
    | nil => cases hab
    | cons y ys =>
      cases c with
      | nil => cases hbc
      | cons z zs =>
        unfold charListLt at hab hbc ⊢
        by_cases hxy : x < y
        · by_cases hyz : y < z
          · rw [if_pos (lt_trans hxy hyz)]
          · rw [if_neg hyz] at hbc
            by_cases hzy : z < y
            · rw [if_pos hzy] at hbc
              cases hbc
            · have hyz' : y = z := le_antisymm (le_of_not_lt hzy) (le_of_not_lt hyz)
              rw [if_pos (hyz' ▸ hxy)]
        · rw [if_neg hxy] at hab
          by_cases hyx : y < x
          · rw [if_pos hyx] at hab
            cases hab
          · rw [if_neg hyx] at hab
            have hxy' : x = y := le_antisymm (le_of_not_lt hyx) (le_of_not_lt hxy)
            by_cases hyz : y < z
            · rw [if_pos (hxy' ▸ hyz)]
            · rw [if_neg hyz] at hbc
              by_cases hzy : z < y
              · rw [if_pos hzy] at hbc
                cases hbc
              · rw [if_neg hzy] at hbc
                rw [if_neg (hxy' ▸ hyz), if_neg (hxy' ▸ hzy : ¬z < x)]
                exact ih ys zs hab hbc

theorem insertSorted_perm (p : String × String) (l : List (String × String)) :
    (insertSorted p l).Perm (p :: l) := by
  induction l with
  | nil => exact List.Perm.refl _
  | cons q r ih =>
    unfold insertSorted
    by_cases h : strLt p.1 q.1
    · rw [if_pos h]
    · rw [if_neg h]
      exact (ih.cons q).trans (List.Perm.swap p q r)

theorem insertSorted_sorted (p : String × String) (l : List (String × String))
    (h : List.Sorted attrLE l) : List.Sorted attrLE (insertSorted p l) := by
  induction l with
  | nil => simp [insertSorted, List.Sorted]
  | cons q r ih =>
    rw [List.sorted_cons] at h
    unfold insertSorted
    by_cases hpq : strLt p.1 q.1
    · rw [if_pos hpq]
      rw [List.sorted_cons]
      constructor
      · intro b hb
        cases List.mem_cons.1 hb with
        | inl h1 =>
          rw [h1]
          exact charListLt_asymm _ _ hpq
        | inr h2 =>
          show strLt b.1 p.1 = false
          cases hbp : strLt b.1 p.1 with
          | false => rfl
          | true =>
            have hbq : strLt b.1 q.1 = true := charListLt_trans _ _ _ hbp hpq
            have := h.1 b h2
            rw [attrLE] at this
            rw [this] at hbq
            cases hbq
      · rw [List.sorted_cons]
        exact h
    · rw [if_neg hpq]
      rw [List.sorted_cons]
      constructor
      · intro b hb
        have hmem := (insertSorted_perm p r).mem_iff.1 hb
        cases List.mem_cons.1 hmem with
        | inl h1 =>
          rw [h1]
          exact Bool.eq_false_iff.2 hpq
        | inr h2 => exact h.1 b h2
      · exact ih h.2

theorem sortAttrs_perm (attrs : List (String × String)) :
    (sortAttrs attrs).Perm attrs := by
  have aux : ∀ (l acc : List (String × String)),
      (l.foldl (fun a p => insertSorted p a) acc).Perm (l ++ acc) := by
    intro l
    induction l with
    | nil => intro acc; simp
    | cons p r ih =>
      intro acc
      exact ((ih (insertSorted p acc)).trans
        (List.Perm.append_left r (insertSorted_perm p acc))).trans List.perm_middle
  have h := aux attrs []
  simpa [sortAttrs] using h

theorem sortAttrs_sorted (attrs : List (String × String)) :
    List.Sorted attrLE (sortAttrs attrs) := by
  have aux : ∀ (l acc : List (String × String)), List.Sorted attrLE acc →
      List.Sorted attrLE (l.foldl (fun a p => insertSorted p a) acc) := by
    intro l
    induction l with
    | nil => intro acc h; exact h
    | cons p r ih =>
      intro acc h
      exact ih _ (insertSorted_sorted p acc h)
  exact aux attrs [] (by simp [List.Sorted])

theorem kids_writexml_text (d : String) (rest : List Node) (ind add nl : String) :
    kids_writexml (.text d :: rest) ind add nl = kids_writexml rest ind add nl := by
  simp only [kids_writexml, Node.isText, if_true]
  exact string_empty_append _

theorem kids_writexml_nontext (n : Node) (rest : List Node) (ind add nl : String)
    (h : n.isText = false) :
    kids_writexml (n :: rest) ind add nl =
      fixed_writexml n ind add nl ++ kids_writexml rest ind add nl := by
  simp only [kids_writexml, h, Bool.false_eq_true, if_false]

/-- Claim C7: the serializer writes attributes in sorted name order
regardless of declaration order (sortAttrs is a sorted permutation of the
declared attributes, and the attributes z then a are emitted a before z,
with identical output for either declaration order); an element whose
only child is a single text node renders inline on one line; an element
with no children renders self-closing; any other element renders its
children between opening tag, newline, the non-text children at one
deeper indent (text children skipped), and closing tag. -/
theorem claim_C7 :
    (∀ attrs : List (String × String),
        (sortAttrs attrs).Perm attrs ∧ List.Sorted attrLE (sortAttrs attrs)) ∧
    (∀ tag ind add nl : String,
        fixed_writexml (.elem tag [("z", "1"), ("a", "2")] []) ind add nl =
          ind ++ "<" ++ tag ++ " a=\"2\" z=\"1\"" ++ "/>" ++ nl ∧
        fixed_writexml (.elem tag [("a", "2"), ("z", "1")] []) ind add nl =
          ind ++ "<" ++ tag ++ " a=\"2\" z=\"1\"" ++ "/>" ++ nl) ∧
    (∀ (tag : String) (attrs : List (String × String)) (d ind add nl : String),
        fixed_writexml (.elem tag attrs [.text d]) ind add nl =
          ind ++ "<" ++ tag ++ renderAttrs attrs ++ ">" ++ xmlEscape d ++
            "</" ++ tag ++ ">" ++ nl) ∧
    (∀ (tag : String) (attrs : List (String × String)) (ind add nl : String),
        fixed_writexml (.elem tag attrs []) ind add nl =
          ind ++ "<" ++ tag ++ renderAttrs attrs ++ "/>" ++ nl) ∧
    (∀ (tag : String) (attrs : List (String × String)) (k1 : Node) (krest : List Node)
        (ind add nl : String), (∀ d, k1 :: krest ≠ [Node.text d]) →
        fixed_writexml (.elem tag attrs (k1 :: krest)) ind add nl =
          ind ++ "<" ++ tag ++ renderAttrs attrs ++ ">" ++ nl ++
            kids_writexml (k1 :: krest) (ind ++ add) add nl ++
            ind ++ "</" ++ tag ++ ">" ++ nl) ∧
    (∀ (d : String) (rest : List Node) (ind add nl : String),
        kids_writexml (.text d :: rest) ind add nl = kids_writexml rest ind add nl) := by
  refine ⟨fun attrs => ⟨sortAttrs_perm attrs, sortAttrs_sorted attrs⟩, ?_, ?_, ?_, ?_,
    kids_writexml_text⟩
  · intro tag ind add nl
    have hz : renderAttrs [("z", "1"), ("a", "2")] = " a=\"2\" z=\"1\"" := by decide
    have ha : renderAttrs [("a", "2"), ("z", "1")] = " a=\"2\" z=\"1\"" := by decide
    constructor
    · simp only [fixed_writexml]
      rw [hz]
    · simp only [fixed_writexml]
      rw [ha]
  · intro tag attrs d ind add nl
    simp only [fixed_writexml]
  · intro tag attrs ind add nl
    simp only [fixed_writexml]
  · intro tag attrs k1 krest ind add nl hne
    cases krest with
    | nil =>
      cases k1 with
      | elem t a k => simp only [fixed_writexml]
      | text d => exact absurd rfl (hne d)
      | comment c => simp only [fixed_writexml]
    | cons k2 ks =>
      cases k1 with
      | elem t a k => simp only [fixed_writexml]
      | text d => simp only [fixed_writexml]
      | comment c => simp only [fixed_writexml]

theorem claim_C7_witness :
    fixed_writexml (.elem "r" [] [.elem "a" [] [], .comment "c"]) "" "  " "\n" =
      "" ++ "<" ++ "r" ++ renderAttrs [] ++ ">" ++ "\n" ++
        kids_writexml [.elem "a" [] [], .comment "c"] ("" ++ "  ") "  " "\n" ++
        "" ++ "</" ++ "r" ++ ">" ++ "\n" :=
  claim_C7.2.2.2.2.1 "r" [] (.elem "a" [] []) [.comment "c"] "" "  " "\n"
    (fun d h => by injection h with h1 h2; exact Node.noConfusion h1)

-- ===========================================================================
-- Claim C6: include resolution
-- ===========================================================================

theorem includeTags_not (t : String)
    (h : ¬(t = "include" ∨ t = "xacro:include")) : includeTags.contains t = false := by
  simp [includeTags]
  tauto

theorem collectNamespaces_id (attrs : List (String × String)) (ns : List (String × String))
    (h : ∀ kv ∈ attrs, kv.1.startsWith "xmlns:" = false) :
    collectNamespaces attrs ns = ns := by
  induction attrs generalizing ns with
  | nil => rfl
  | cons kv r ih =>
    unfold collectNamespaces
    rw [List.foldl_cons]
    rw [h kv (List.mem_cons_self _ _)]
    simp only [Bool.false_eq_true, if_false]
    exact ih ns fun p hp => h p (List.mem_cons_of_mem _ hp)

/-- Forests without include directives pass through include resolution
unchanged, whatever the fuel (fuel is consumed only by splices). -/
theorem process_nodes_no_include (resolve : String → String)
    (files : List (String × FileData)) (fuel : Nat) :
    ∀ (l : List Node) (st : IncState), containsTagIn includeTags l = false →
      process_nodes resolve files fuel l st = .ok (l, st) := by
  intro l
  induction l using containsTagIn.induct includeTags with
  | case1 =>
    intro st h
    simp only [process_nodes]
  | case2 t a kids rest ihk ihr =>
    intro st h
    rw [containsTagIn_elem] at h
    have h1 : includeTags.contains t = false := by
      cases hc : includeTags.contains t with
      | false => rfl
      | true => rw [hc] at h; simp at h
    have h2 : containsTagIn includeTags kids = false := by
      cases hc : containsTagIn includeTags kids with
      | false => rfl
      | true => rw [hc] at h; simp at h
    have h3 : containsTagIn includeTags rest = false := by
      cases hc : containsTagIn includeTags rest with
      | false => rfl
      | true => rw [hc] at h; simp at h
    have hni : ¬(t = "include" ∨ t = "xacro:include") := by
      intro hor
      rw [show includeTags.contains t = true by
        cases hor with
        | inl he => rw [he]; rfl
        | inr he => rw [he]; rfl] at h1
      cases h1
    simp only [process_nodes]
    rw [if_neg hni]
    rw [ihk st h2, except_bind_ok, ihr st h3, except_bind_ok]
  | case3 n rest hne ihr =>
    intro st h
    cases n with
    | elem t a k => exact (hne t a k rfl).elim
    | text d =>
      rw [containsTagIn_text] at h
      simp only [process_nodes]
      rw [ihr st h, except_bind_ok]
    | comment d =>
      rw [containsTagIn_comment] at h
      simp only [process_nodes]
      rw [ihr st h, except_bind_ok]

/-- Processing a forest that begins with an include-free prefix processes
the prefix unchanged and continues with the remainder. -/
theorem process_nodes_front (resolve : String → String)
    (files : List (String × FileData)) (fuel : Nat) :
    ∀ (pre : List Node), containsTagIn includeTags pre = false →
    ∀ (rest : List Node) (st : IncState),
      process_nodes resolve files fuel (pre ++ rest) st =
        (process_nodes resolve files fuel rest st).map (fun p => (pre ++ p.1, p.2)) := by
  intro pre
  induction pre using containsTagIn.induct includeTags with
  | case1 =>
    intro _ rest st
    rw [List.nil_append]
    cases hr : process_nodes resolve files fuel rest st with
    | error e => rfl
    | ok p => rfl
  | case2 t a kids rest0 ihk ihr =>
    intro h rest st
    rw [containsTagIn_elem] at h
    have h1 : includeTags.contains t = false := by
      cases hc : includeTags.contains t with
      | false => rfl
      | true => rw [hc] at h; simp at h
    have h2 : containsTagIn includeTags kids = false := by
      cases hc : containsTagIn includeTags kids with
      | false => rfl
      | true => rw [hc] at h; simp at h
    have h3 : containsTagIn includeTags rest0 = false := by
      cases hc : containsTagIn includeTags rest0 with
      | false => rfl
      | true => rw [hc] at h; simp at h
    have hni : ¬(t = "include" ∨ t = "xacro:include") := by
      intro hor
      rw [show includeTags.contains t = true by
        cases hor with
        | inl he => rw [he]; rfl
        | inr he => rw [he]; rfl] at h1
      cases h1
    show process_nodes resolve files fuel (.elem t a kids :: (rest0 ++ rest)) st = _
    simp only [process_nodes]
    rw [if_neg hni]
    rw [process_nodes_no_include resolve files fuel kids st h2, except_bind_ok]
    rw [ihr h3 rest st]
    cases hr : process_nodes resolve files fuel rest st with
    | error e => rfl
    | ok p => rfl
  | case3 n rest0 hne ihr =>
    intro h rest st
    have h3 : containsTagIn includeTags rest0 = false := by
      cases n with
      | elem t a k => exact (hne t a k rfl).elim
      | text d => rw [containsTagIn_text] at h; exact h
      | comment d => rw [containsTagIn_comment] at h; exact h
    have hstep : process_nodes resolve files fuel (n :: (rest0 ++ rest)) st =
        (process_nodes resolve files fuel (rest0 ++ rest) st).map
          (fun p => (n :: p.1, p.2)) := by
      cases n with
      | elem t a k => exact (hne t a k rfl).elim
      | text d =>
        simp only [process_nodes]
        cases hr : process_nodes resolve files fuel (rest0 ++ rest) st with
        | error e => rfl
        | ok p => rfl
      | comment d =>
        simp only [process_nodes]
        cases hr : process_nodes resolve files fuel (rest0 ++ rest) st with
        | error e => rfl
        | ok p => rfl
    show process_nodes resolve files fuel (n :: (rest0 ++ rest)) st = _
    rw [hstep, ihr h3 rest st]
    cases hr : process_nodes resolve files fuel rest st with
    | error e => rfl
    | ok p => rfl

/-- One include step: an include directive at the head of the forest is
replaced by the referenced root's child elements, spliced in place before
the remainder, and scanning resumes at the start of the spliced content. -/
theorem process_nodes_include_step (resolve : String → String)
    (files : List (String × FileData)) (fuel : Nat)
    (itag : String) (hitag : itag = "include" ∨ itag = "xacro:include")
    (iattrs : List (String × String)) (ikids : List Node) (rest : List Node)
    (st : IncState) (fname : String) (iroot : Node)
    (hfn : eval_text (getAttribute iattrs "filename") emptyTable = .ok fname)
    (hfile : (files.find? (fun p => p.1 == resolve fname)).map Prod.snd =
      some (.xml iroot)) :
    process_nodes resolve files (fuel + 1) (.elem itag iattrs ikids :: rest) st =
      process_nodes resolve files fuel (child_elements iroot.kidsOf ++ rest)
        { namespaces := collectNamespaces iroot.attrsOf st.namespaces,
          includes := st.includes ++ [resolve fname] } := by
  simp only [process_nodes]
  rw [if_pos hitag, hfn]
  simp only [hfile]

/-- Claim C6: include inlining.  Flat scenario: a root whose children are
an include-free prefix, one include directive resolving to a file whose
root has exactly the child elements a then b, and an include-free
remainder, resolves to the same root with a then b spliced in place of
the include, in order, and the include element removed.  Nested
scenario: when the referenced root's only child element is itself an
include directive whose file has the child elements a then b, the inner
include is also resolved before resolution completes — the scan restarts
over spliced content — producing the same spliced result and recording
both included paths in order. -/
theorem claim_C6 (resolve : String → String) (files : List (String × FileData))
    (fuel : Nat) (rtag : String) (rattrs : List (String × String))
    (pre post : List Node) (a b : Node)
    (hpre : containsTagIn includeTags pre = false)
    (hrest : containsTagIn includeTags (a :: b :: post) = false) :
    (∀ (itag : String) (iattrs : List (String × String)) (ikids : List Node)
        (fname : String) (iroot : Node),
      (itag = "include" ∨ itag = "xacro:include") →
      eval_text (getAttribute iattrs "filename") emptyTable = .ok fname →
      (files.find? (fun p => p.1 == resolve fname)).map Prod.snd = some (.xml iroot) →
      child_elements iroot.kidsOf = [a, b] →
      (∀ kv ∈ iroot.attrsOf, kv.1.startsWith "xmlns:" = false) →
      process_includes resolve files (fuel + 1)
          (.elem rtag rattrs (pre ++ .elem itag iattrs ikids :: post)) =
        .ok (.elem rtag rattrs (pre ++ a :: b :: post), [resolve fname])) ∧
    (∀ (itag itag2 : String) (iattrs iattrs2 : List (String × String))
        (ikids ikids2 : List Node) (fname fname2 : String) (iroot iroot2 : Node),
      (itag = "include" ∨ itag = "xacro:include") →
      (itag2 = "include" ∨ itag2 = "xacro:include") →
      eval_text (getAttribute iattrs "filename") emptyTable = .ok fname →
      (files.find? (fun p => p.1 == resolve fname)).map Prod.snd = some (.xml iroot) →
      child_elements iroot.kidsOf = [.elem itag2 iattrs2 ikids2] →
      (∀ kv ∈ iroot.attrsOf, kv.1.startsWith "xmlns:" = false) →
      eval_text (getAttribute iattrs2 "filename") emptyTable = .ok fname2 →
      (files.find? (fun p => p.1 == resolve fname2)).map Prod.snd = some (.xml iroot2) →
      child_elements iroot2.kidsOf = [a, b] →
      (∀ kv ∈ iroot2.attrsOf, kv.1.startsWith "xmlns:" = false) →
      process_includes resolve files (fuel + 2)
          (.elem rtag rattrs (pre ++ .elem itag iattrs ikids :: post)) =
        .ok (.elem rtag rattrs (pre ++ a :: b :: post),
          [resolve fname, resolve fname2])) := by
  constructor
  · intro itag iattrs ikids fname iroot hitag hfn hfile hsplice hns
    simp only [process_includes]
    rw [process_nodes_front resolve files (fuel + 1) pre hpre
      (.elem itag iattrs ikids :: post) ⟨[], []⟩]
    rw [process_nodes_include_step resolve files fuel itag hitag iattrs ikids post
      ⟨[], []⟩ fname iroot hfn hfile]
    rw [hsplice, collectNamespaces_id iroot.attrsOf [] hns]
    show ((process_nodes resolve files fuel (a :: b :: post)
        ⟨[], [resolve fname]⟩).map (fun p => (pre ++ p.1, p.2)) >>= _) = _
    rw [process_nodes_no_include resolve files fuel (a :: b :: post)
      ⟨[], [resolve fname]⟩ hrest]
    rfl
  · intro itag itag2 iattrs iattrs2 ikids ikids2 fname fname2 iroot iroot2
      hitag hitag2 hfn hfile hsplice hns hfn2 hfile2 hsplice2 hns2
    simp only [process_includes]
    rw [process_nodes_front resolve files (fuel + 2) pre hpre
      (.elem itag iattrs ikids :: post) ⟨[], []⟩]
    rw [show fuel + 2 = (fuel + 1) + 1 from rfl]
    rw [process_nodes_include_step resolve files (fuel + 1) itag hitag iattrs ikids post
      ⟨[], []⟩ fname iroot hfn hfile]
    rw [hsplice, collectNamespaces_id iroot.attrsOf [] hns]
    rw [show ({ namespaces := [], includes := [] } : IncState).includes ++
      [resolve fname] = [resolve fname] from rfl]
    rw [show (.elem itag2 iattrs2 ikids2 :: []) ++ post =
      (.elem itag2 iattrs2 ikids2 :: post : List Node) from rfl]
    rw [process_nodes_include_step resolve files fuel itag2 hitag2 iattrs2 ikids2 post
      ⟨[], [resolve fname]⟩ fname2 iroot2 hfn2 hfile2]
    rw [hsplice2, collectNamespaces_id iroot2.attrsOf [] hns2]
    rw [show ({ namespaces := [], includes := [resolve fname] } : IncState).includes ++
      [resolve fname2] = [resolve fname, resolve fname2] from rfl]
    rw [show ([a, b] : List Node) ++ post = a :: b :: post from rfl]
    rw [process_nodes_no_include resolve files fuel (a :: b :: post)
      ⟨[], [resolve fname, resolve fname2]⟩ hrest]
    rfl

theorem claim_C6_witness :
    process_includes id
        [("/I.xml", .xml (.elem "robot" [] [.elem "leg" [] [], .elem "arm" [] []]))]
        1 (.elem "robot" [] [.elem "include" [("filename", "/I.xml")] []]) =
      .ok (.elem "robot" [] [.elem "leg" [] [], .elem "arm" [] []], ["/I.xml"]) := by
  have h := (claim_C6 id
      [("/I.xml", .xml (.elem "robot" [] [.elem "leg" [] [], .elem "arm" [] []]))]
      0 "robot" [] [] [] (.elem "leg" [] []) (.elem "arm" [] [])
      (containsTagIn_nil includeTags)
      (by simp [containsTagIn, includeTags])).1
    "include" [("filename", "/I.xml")] [] "/I.xml"
    (.elem "robot" [] [.elem "leg" [] [], .elem "arm" [] []])
    (Or.inl rfl) (by decide) rfl rfl (by simp [Node.attrsOf])
  simpa using h

-- ===========================================================================
-- Claims C4 and C10: convert_xacro_to_urdf and the filesystem
-- ===========================================================================

theorem mkdirs_files (fs : PyFS) (d : String) : (fs.mkdirs d).files = fs.files := rfl

theorem mkdirs_mem (fs : PyFS) (d : String) : d ∈ (fs.mkdirs d).dirs := by
  unfold PyFS.mkdirs
  by_cases h : fs.dirs.contains d
  · rw [if_pos h]
    exact List.elem_iff.1 h
  · rw [if_neg h]
    exact List.mem_append.2 (Or.inr (List.mem_singleton.2 rfl))

theorem isfile_of_read (fs : PyFS) (src : String) (fd : FileData)
    (h : fs.read src = some fd) : fs.isfile src = true := by
  unfold PyFS.read at h
  unfold PyFS.isfile
  cases hf : fs.files.find? (fun q => q.1 == src) with
  | none => rw [hf] at h; cases h
  | some q => rfl

/-- Claim C4: when the pipeline reaches evaluation and the tree contains
an expression span over a symbol absent from the whole scope chain, the
KeyError carrying that name propagates out of convert and the
destination file is not created (the filesystem's files are unchanged).
The last conjunct ties the span to the error: a span whose interior
lexes as a single SYMBOL token that is no float literal and is bound
nowhere makes eval_text raise exactly that name. -/
theorem claim_C4 (resolve : String → String) (fuel : Nat) (fs : PyFS)
    (src dst : String) (doc : Node) (name : String) (pr : Node × List String)
    (hsrc : fs.read src = some (.xml doc))
    (hinc : process_includes resolve fs.files fuel doc = .ok pr)
    (heval : eval_self_contained pr.1 = .error name) :
    convert_xacro_to_urdf resolve fuel fs src dst =
      (fs.mkdirs (dirname dst), some (.undefinedSymbol name)) ∧
    (convert_xacro_to_urdf resolve fuel fs src dst).1.files = fs.files ∧
    (∀ (σ : Table) (s w rest : List Char),
        exprNext s = some (.SYMBOL, w, rest) →
        pyFloatParse (String.mk w) = none →
        σ.getitem (String.mk w) = none →
        '}' ∉ s →
        eval_text (exprSpan s) σ = .error (String.mk w)) := by
  have hisfile : fs.isfile src = true := isfile_of_read fs src _ hsrc
  have hread1 : (fs.mkdirs (dirname dst)).read src = some (.xml doc) := hsrc
  have hinc1 : process_includes resolve (fs.mkdirs (dirname dst)).files fuel doc =
      .ok pr := hinc
  have hmain : convert_xacro_to_urdf resolve fuel fs src dst =
      (fs.mkdirs (dirname dst), some (.undefinedSymbol name)) := by
    unfold convert_xacro_to_urdf
    rw [show pyAbspath src = src from rfl, show pyAbspath dst = dst from rfl]
    rw [if_pos hisfile, hread1]
    simp [hinc1, heval]
  refine ⟨hmain, by rw [hmain]; rfl, ?_⟩
  intro σ s w rest htok hpf hget hnb
  have hexpr : matchEXPR ((exprSpan s).data) = some (s, []) := by
    show takeToBrace (s ++ ['}']) = some (s, [])
    simpa using takeToBrace_append s [] hnb
  have hev : eval_expr σ s = .error (String.mk w) := by
    unfold eval_expr
    rw [htok]
    simp [hpf, hget]
  unfold eval_text
  rw [eval_text_loop_expr σ _ _ _ _ (by omega) hexpr, hev]
  rfl

theorem claim_C4_witness :
    convert_xacro_to_urdf id 1
        { files := [("/r.xacro",
            .xml (.elem "robot" [] [.text (exprSpan ('u' :: 'n' :: 'k' :: []))]))],
          dirs := [] }
        "/r.xacro" "/out/r.urdf" =
      ({ files := [("/r.xacro",
            .xml (.elem "robot" [] [.text (exprSpan ('u' :: 'n' :: 'k' :: []))]))],
          dirs := ["/out"] }, some (.undefinedSymbol "unk")) := by
  have hdoc : process_includes id
      [("/r.xacro", .xml (.elem "robot" [] [.text (exprSpan ('u' :: 'n' :: 'k' :: []))]))]
      1 (.elem "robot" [] [.text (exprSpan ('u' :: 'n' :: 'k' :: []))]) =
      .ok (.elem "robot" [] [.text (exprSpan ('u' :: 'n' :: 'k' :: []))], []) := by
    simp only [process_includes]
    rw [process_nodes_no_include id _ 1 _ _ (by simp [containsTagIn])]
    rfl
  have heval : eval_self_contained
      (.elem "robot" [] [.text (exprSpan ('u' :: 'n' :: 'k' :: []))]) =
      .error "unk" := by
    have ht : eval_text (exprSpan ('u' :: 'n' :: 'k' :: [])) (Table.root []) =
        .error "unk" := by decide
    simp [eval_self_contained, grab_macros, grab_macros_list, grab_properties,
      grab_properties_list, eval_all, eval_all_list, evalAttrs, ht, except_bind_ok,
      except_bind_err]
  have h := (claim_C4 id 1
      { files := [("/r.xacro",
          .xml (.elem "robot" [] [.text (exprSpan ('u' :: 'n' :: 'k' :: []))]))],
        dirs := [] }
      "/r.xacro" "/out/r.urdf"
      (.elem "robot" [] [.text (exprSpan ('u' :: 'n' :: 'k' :: []))]) "unk"
      (.elem "robot" [] [.text (exprSpan ('u' :: 'n' :: 'k' :: []))], [])
      rfl hdoc heval).1
  rw [h]
  rfl

/-- Claim C10: convert creates the destination's parent directory before
the source document is parsed, so any failure after the source-existence
check leaves the parent directory existing while the files are
untouched; and a missing source fails with FileNotFoundError before any
directory is created, leaving the filesystem exactly as it was. -/
theorem claim_C10 :
    (∀ (resolve : String → String) (fuel : Nat) (fs : PyFS) (src dst : String),
        fs.isfile src = false →
        convert_xacro_to_urdf resolve fuel fs src dst = (fs, some (.fileNotFound src))) ∧
    (∀ (resolve : String → String) (fuel : Nat) (fs : PyFS) (src dst : String)
        (fs' : PyFS) (e : ConvErr),
        fs.isfile src = true →
        convert_xacro_to_urdf resolve fuel fs src dst = (fs', some e) →
        fs'.files = fs.files ∧ dirname dst ∈ fs'.dirs) := by
  constructor
  · intro resolve fuel fs src dst h
    unfold convert_xacro_to_urdf
    rw [show pyAbspath src = src from rfl, show pyAbspath dst = dst from rfl]
    rw [if_neg (by rw [h]; exact Bool.false_ne_true)]
  · intro resolve fuel fs src dst fs' e hisfile hconv
    have hfs1 : ∀ (err : ConvErr),
        (fs.mkdirs (dirname dst), some err) = (fs', some e) →
        fs'.files = fs.files ∧ dirname dst ∈ fs'.dirs := by
      intro err heq
      injection heq with h1 h2
      rw [← h1]
      exact ⟨rfl, mkdirs_mem fs (dirname dst)⟩
    unfold convert_xacro_to_urdf at hconv
    rw [show pyAbspath src = src from rfl, show pyAbspath dst = dst from rfl,
      if_pos hisfile] at hconv
    split at hconv
    · exact hfs1 _ hconv
    · exact hfs1 _ hconv
    · exact hfs1 _ hconv
    · split at hconv
      · exact hfs1 _ hconv
      · split at hconv
        · exact hfs1 _ hconv
        · injection hconv with h1 h2
          cases h2

theorem claim_C10_witness :
    convert_xacro_to_urdf id 0 { files := [], dirs := [] } "/a.xacro" "/out/a.urdf" =
      ({ files := [], dirs := [] }, some (.fileNotFound "/a.xacro")) :=
  claim_C10.1 id 0 { files := [], dirs := [] } "/a.xacro" "/out/a.urdf" rfl

end XacroUnity
